import Mathlib

/-! Verification of `randomcpp`.

A shallow embedding of `src/random.cpp` (namespace `randomcpp`) and theorems about it.

Conventions of the embedding.

* C++ `int` is `Int`; `/` and `%` on `int` are the truncating `Int.tdiv` and `Int.tmod`.
  The integer utilities are given twice: with `int` arithmetic read as exact (`randrange`,
  `randint`, `sample`), and with every `int` operation reduced to 32 bits (`randrange32`,
  `randint32`, `sample32`).  `unsigned` is `Nat`; where the source compares an `int` with an
  `unsigned` the conversion of the `int` modulo `2 ^ 32` is written out (`toUnsigned`).
* `std::rand()` reads hidden state of the C library.  That state is the `Engine`: the sequence
  of values `std::rand()` is going to return and the position reached in it.
* A `float` value is a rational number; there are no infinities and no NaN.  In `random` and
  `uniform` the conversion of `int` to `float` and every arithmetic operation round to
  `float` precision (`toFloat`: 24 significant bits, to nearest, ties to even).  The other
  real-valued samplers are written with exact arithmetic around the functions of `<cmath>`;
  the theorems use of them only which way they branch, throw and return.
* The functions of `<cmath>`, the macros `RAND_MAX`, `M_E`, `M_PI`, `std::srand`, and the
  `std::normal_distribution` over `std::mt19937` used by `gauss` are not part of the
  repository; they are the fields of `CLib`, a parameter of every definition that uses them.
* A `throw` is the outcome `Outcome.raised`; a loop is a recursive function on a bound on its
  number of iterations, with outcome `Outcome.diverged` when the bound is reached.
-/

namespace randomcpp

/-- The exceptions thrown by the library, one constructor per message:
`emptyRange` is `std::range_error("empty range for randrange()")`,
`zeroStep` is `std::range_error("zero step for randrange()")`,
`invalidArgument` is `std::invalid_argument("gammavariate: alpha and beta must be > 0.0")`,
`rangeLessThanCount` is
`std::range_error("random vector unique but range is less than count")`. -/
inductive Error where
  | emptyRange
  | zeroStep
  | invalidArgument
  | rangeLessThanCount
  deriving DecidableEq, Repr

/-- How a call ends: it returns `v`, it throws, control reaches the closing brace of a
function that has to return a value without meeting a `return` (undefined behaviour in C++),
or a loop is still running when the iteration bound is used up. -/
inductive Outcome (α : Type) where
  | value (v : α)
  | raised (err : Error)
  | noReturn
  | diverged
  deriving DecidableEq, Repr

/-- Hidden state of `std::rand()`: the values it is going to return (`outputs`) and how many
of them have been handed out (`pos`). -/
structure Engine where
  outputs : Nat → Nat
  pos : Nat

/-- One call of `std::rand()`: the value returned and the engine after the call. -/
def Engine.rand (e : Engine) : Nat × Engine :=
  (e.outputs e.pos, { e with pos := e.pos + 1 })

/-- What the repository takes from the C and C++ standard libraries. -/
structure CLib where
  /-- The macro `RAND_MAX`. -/
  RAND_MAX : Nat
  /-- The C standard requires `RAND_MAX` to be at least 32767. -/
  RAND_MAX_ge : 32767 ≤ RAND_MAX
  /-- The sequence of `std::rand()` values that follows `std::srand(s)`. -/
  srand : Nat → Nat → Nat
  /-- The macro `M_E`. -/
  M_E : ℚ
  /-- The macro `M_PI`. -/
  M_PI : ℚ
  log : ℚ → ℚ
  exp : ℚ → ℚ
  sqrt : ℚ → ℚ
  pow : ℚ → ℚ → ℚ
  cos : ℚ → ℚ
  acos : ℚ → ℚ
  fmod : ℚ → ℚ → ℚ
  /-- The variate `dist(gen)` for `std::normal_distribution<float> dist(mu, sigma)` and
  `std::mt19937 gen(s)`, as a function of `s`, `mu` and `sigma`. -/
  normal_distribution : Nat → ℚ → ℚ → ℚ

/-! ## Integer utilities -/

/-- Embeds `int _randbelow(int n) { return std::rand() % n; }` -/
def _randbelow (n : Int) (e : Engine) : Int × Engine :=
  ((e.rand.1 : Int).tmod n, e.rand.2)

/-- Embeds `int randrange(int start, int stop, int step)` -/
def randrange (start stop step : Int) (e : Engine) : Outcome Int × Engine :=
  let width := stop - start
  if step = 1 ∧ width > 0 then
    (.value (start + (_randbelow width e).1), (_randbelow width e).2)
  else if step = 1 then
    (.raised .emptyRange, e)
  else if step > 0 then
    let n := (width + step - 1).tdiv step
    if n ≤ 0 then (.raised .emptyRange, e)
    else (.value (start + step * (_randbelow n e).1), (_randbelow n e).2)
  else if step < 0 then
    let n := (width + step + 1).tdiv step
    if n ≤ 0 then (.raised .emptyRange, e)
    else (.value (start + step * (_randbelow n e).1), (_randbelow n e).2)
  else
    (.raised .zeroStep, e)

/-- Embeds `int randrange(int stop) { return randrange(0, stop); }`, the step defaulted to 1. -/
def randrangeStop (stop : Int) (e : Engine) : Outcome Int × Engine :=
  randrange 0 stop 1 e

/-- Embeds `int randint(int a, int b) { return randrange(a, b + 1); }` -/
def randint (a b : Int) (e : Engine) : Outcome Int × Engine :=
  randrange a (b + 1) 1 e

/-- Conversion of an `int` to `unsigned`, which `b - a` undergoes in the comparison
`(b - a) < k` of `sample`, where `k` is `unsigned`. -/
def toUnsigned (x : Int) : Nat :=
  (x % 2 ^ 32).toNat

/-- The `while (rand_is.size() < k)` loop of `sample`; `rand_is` is the vector built so far
and the first argument bounds the number of iterations. -/
def sampleLoop (a b : Int) (k : Nat) (unique : Bool) :
    Nat → List Int → Engine → Outcome (List Int) × Engine
  | 0, rand_is, e =>
    if rand_is.length < k then (.diverged, e) else (.value rand_is, e)
  | fuel + 1, rand_is, e =>
    if rand_is.length < k then
      match randint a b e with
      | (.value rand_i, e1) =>
        if !unique || !(rand_is.contains rand_i) then
          sampleLoop a b k unique fuel (rand_is ++ [rand_i]) e1
        else
          sampleLoop a b k unique fuel rand_is e1
      | (.raised err, e1) => (.raised err, e1)
      | (.noReturn, e1) => (.noReturn, e1)
      | (.diverged, e1) => (.diverged, e1)
    else (.value rand_is, e)

/-- Embeds `std::vector<int> sample(int a, int b, unsigned k, bool unique)` -/
def sample (a b : Int) (k : Nat) (unique : Bool) (fuel : Nat) (e : Engine) :
    Outcome (List Int) × Engine :=
  if unique = true ∧ toUnsigned (b - a) < k then
    (.raised .rangeLessThanCount, e)
  else
    sampleLoop a b k unique fuel [] e

/-- The values returned by `n` successive calls `randint(a, b)` starting from the engine
`e`, first call first (the list stops at a call that does not return). -/
def randintDraws (a b : Int) : Nat → Engine → List Int
  | 0, _ => []
  | n + 1, e =>
    match randint a b e with
    | (.value v, e1) => v :: randintDraws a b n e1
    | _ => []

/-! ## Integer utilities on 32-bit `int`

The definitions above read `int` arithmetic as exact.  The ones below repeat them with every
`int` operation reduced to 32 bits.  Signed overflow is undefined behaviour in C++; the
reduction taken here is the two's-complement wrap-around that the usual compilers produce.
Where no operation overflows the two readings agree. -/

/-- The value `INT_MAX` of a 32-bit `int`. -/
def INT_MAX : Int := 2147483647

/-- The value `INT_MIN` of a 32-bit `int`. -/
def INT_MIN : Int := -2147483648

/-- Two's-complement reduction of an integer to the range `[INT_MIN, INT_MAX]`. -/
def wrapInt (x : Int) : Int :=
  (x + 2147483648) % 4294967296 - 2147483648

/-- Embeds `int randrange(int start, int stop, int step)` on 32-bit `int`. -/
def randrange32 (start stop step : Int) (e : Engine) : Outcome Int × Engine :=
  let width := wrapInt (stop - start)
  if step = 1 ∧ width > 0 then
    (.value (wrapInt (start + (_randbelow width e).1)), (_randbelow width e).2)
  else if step = 1 then
    (.raised .emptyRange, e)
  else if step > 0 then
    let n := wrapInt ((wrapInt (wrapInt (width + step) - 1)).tdiv step)
    if n ≤ 0 then (.raised .emptyRange, e)
    else (.value (wrapInt (start + wrapInt (step * (_randbelow n e).1))), (_randbelow n e).2)
  else if step < 0 then
    let n := wrapInt ((wrapInt (wrapInt (width + step) + 1)).tdiv step)
    if n ≤ 0 then (.raised .emptyRange, e)
    else (.value (wrapInt (start + wrapInt (step * (_randbelow n e).1))), (_randbelow n e).2)
  else
    (.raised .zeroStep, e)

/-- Embeds `int randint(int a, int b) { return randrange(a, b + 1); }` on 32-bit `int`. -/
def randint32 (a b : Int) (e : Engine) : Outcome Int × Engine :=
  randrange32 a (wrapInt (b + 1)) 1 e

/-- The `while (rand_is.size() < k)` loop of `sample` on 32-bit `int`. -/
def sampleLoop32 (a b : Int) (k : Nat) (unique : Bool) :
    Nat → List Int → Engine → Outcome (List Int) × Engine
  | 0, rand_is, e =>
    if rand_is.length < k then (.diverged, e) else (.value rand_is, e)
  | fuel + 1, rand_is, e =>
    if rand_is.length < k then
      match randint32 a b e with
      | (.value rand_i, e1) =>
        if !unique || !(rand_is.contains rand_i) then
          sampleLoop32 a b k unique fuel (rand_is ++ [rand_i]) e1
        else
          sampleLoop32 a b k unique fuel rand_is e1
      | (.raised err, e1) => (.raised err, e1)
      | (.noReturn, e1) => (.noReturn, e1)
      | (.diverged, e1) => (.diverged, e1)
    else (.value rand_is, e)

/-- Embeds `std::vector<int> sample(int a, int b, unsigned k, bool unique)` on 32-bit
`int`. -/
def sample32 (a b : Int) (k : Nat) (unique : Bool) (fuel : Nat) (e : Engine) :
    Outcome (List Int) × Engine :=
  if unique = true ∧ toUnsigned (wrapInt (b - a)) < k then
    (.raised .rangeLessThanCount, e)
  else
    sampleLoop32 a b k unique fuel [] e

/-- The values returned by `n` successive calls `randint(a, b)` on 32-bit `int` starting
from the engine `e`, first call first (the list stops at a call that does not return). -/
def randintDraws32 (a b : Int) : Nat → Engine → List Int
  | 0, _ => []
  | n + 1, e =>
    match randint32 a b e with
    | (.value v, e1) => v :: randintDraws32 a b n e1
    | _ => []

/-! ## Real-valued draws -/

/-- Rounding of a rational number to the nearest integer, ties to the even one. -/
def roundEven (m : ℚ) : Int :=
  if m - ⌊m⌋ < 1 / 2 then ⌊m⌋
  else if 1 / 2 < m - ⌊m⌋ then ⌊m⌋ + 1
  else if ⌊m⌋ % 2 = 0 then ⌊m⌋ else ⌊m⌋ + 1

/-- Rounding of a positive rational number to 24 significant bits: with
`2 ^ e ≤ x < 2 ^ (e + 1)`, the quotient of `x` by `2 ^ (e - 23)` is rounded to an integer. -/
def roundPos (x : ℚ) : ℚ :=
  (roundEven (x / 2 ^ (Int.log 2 x - 23)) : ℚ) * 2 ^ (Int.log 2 x - 23)

/-- The `float` nearest to a rational number (IEEE 754 binary32, round to nearest, ties to
even).  The exponent range of `float` is not modelled: nothing overflows to infinity or
underflows.  The values rounded in `random` lie between `2 ^ (-31)` and `2 ^ 31` for a
32-bit `RAND_MAX`. -/
def toFloat (x : ℚ) : ℚ :=
  if 0 < x then roundPos x else if x < 0 then -roundPos (-x) else 0

/-- Embeds `float random() { return static_cast<float>(std::rand()) / RAND_MAX; }`: the
value of `std::rand()` is converted to `float`, `RAND_MAX` is converted to `float` for the
division, and the quotient is rounded. -/
def random (lib : CLib) (e : Engine) : ℚ × Engine :=
  (toFloat (toFloat (e.rand.1 : ℚ) / toFloat (lib.RAND_MAX : ℚ)), e.rand.2)

/-- Embeds `float uniform(float a, float b) { return a + (b-a) * random(); }`, each of the
three operations rounded. -/
def uniform (lib : CLib) (a b : ℚ) (e : Engine) : ℚ × Engine :=
  (toFloat (a + toFloat (toFloat (b - a) * (random lib e).1)), (random lib e).2)

/-- Embeds `float triangular(float low, float high, float c)`; in the `u > c` case `u` and
`c` are replaced by `1 - u` and `1 - c` and `low`, `high` are swapped. -/
def triangular (lib : CLib) (low high c : ℚ) (e : Engine) : ℚ × Engine :=
  let u := (random lib e).1
  if u > c then
    (high + (low - high) * lib.pow ((1 - u) * (1 - c)) (1 / 2), (random lib e).2)
  else
    (low + (high - low) * lib.pow (u * c) (1 / 2), (random lib e).2)

/-- Embeds `float expovariate(float lambda)`: `do { u = random(); } while (u <= 1e-7);` -/
def expovariate (lib : CLib) (lambda : ℚ) : Nat → Engine → Outcome ℚ × Engine
  | 0, e => (.diverged, e)
  | fuel + 1, e =>
    let u := (random lib e).1
    let e1 := (random lib e).2
    if u ≤ 1e-7 then expovariate lib lambda fuel e1
    else (.value (-(lib.log u) / lambda), e1)

/-- Embeds `static float const SG_MAGICCONST = 1.0f + std::log(4.5f);` -/
def SG_MAGICCONST (lib : CLib) : ℚ := 1 + lib.log 4.5

/-- Embeds `static float const NV_MAGICCONST = 4.0f * std::exp(-0.5)/std::sqrt(2.0f);` -/
def NV_MAGICCONST (lib : CLib) : ℚ := 4 * lib.exp (-0.5) / lib.sqrt 2

/-- The condition `1e-7 < u1 < .9999999` of the `alpha > 1` branch.  C++ parses it as
`(1e-7 < u1) < .9999999`: the `bool` value of `1e-7 < u1` is converted to `0` or `1` and that
number is compared with `.9999999`. -/
def chengSkip (u1 : ℚ) : Bool :=
  decide ((if (1e-7 : ℚ) < u1 then (1 : ℚ) else 0) < 0.9999999)

/-- The `while (true)` loop of the `alpha > 1` branch of `gammavariate` (Cheng 1977). -/
def gammavariateCheng (lib : CLib) (alpha beta ainv bbb ccc : ℚ) :
    Nat → Engine → Outcome ℚ × Engine
  | 0, e => (.diverged, e)
  | fuel + 1, e =>
    let u1 := (random lib e).1
    let e1 := (random lib e).2
    if chengSkip u1 = true then
      gammavariateCheng lib alpha beta ainv bbb ccc fuel e1
    else
      let u2 := 1 - (random lib e1).1
      let e2 := (random lib e1).2
      let v := lib.log (u1 / (1 - u1)) / ainv
      let x := alpha * lib.exp v
      let z := u1 * u1 * u2
      let r := bbb + ccc * v - x
      if r + SG_MAGICCONST lib - 4.5 * z ≥ 0 ∨ r ≥ lib.log z then
        (.value (x * beta), e2)
      else
        gammavariateCheng lib alpha beta ainv bbb ccc fuel e2

/-- The `alpha == 1.0` branch of `gammavariate` after its first draw `u`:
`while (u <= 1e-7) { u = random(); } return -std::log(u) * beta;` -/
def gammavariateOne (lib : CLib) (beta : ℚ) : Nat → ℚ → Engine → Outcome ℚ × Engine
  | 0, u, e =>
    if u ≤ 1e-7 then (.diverged, e) else (.value (-(lib.log u) * beta), e)
  | fuel + 1, u, e =>
    if u ≤ 1e-7 then gammavariateOne lib beta fuel (random lib e).1 (random lib e).2
    else (.value (-(lib.log u) * beta), e)

/-- In the last branch of `gammavariate`: `b = (M_E + alpha) / M_E`. -/
def gsB (lib : CLib) (alpha : ℚ) : ℚ := (lib.M_E + alpha) / lib.M_E

/-- In the last branch of `gammavariate`: `p = b * u`. -/
def gsP (lib : CLib) (alpha u : ℚ) : ℚ := gsB lib alpha * u

/-- In the last branch of `gammavariate`: the candidate `x` computed from the draw `u`.  At
`alpha = 0`, which the guard of `gammavariate` lets through, the source divides by zero
(`1.0f / alpha` is `+inf`); the rationals have no infinity and `1 / 0` is `0` here.  The
value of the candidate at `alpha = 0` is used by no theorem. -/
def gsX (lib : CLib) (alpha u : ℚ) : ℚ :=
  if gsP lib alpha u ≤ 1 then lib.pow (gsP lib alpha u) (1 / alpha)
  else -(lib.log ((gsB lib alpha - gsP lib alpha u) / alpha))

/-- In the last branch of `gammavariate`: the acceptance test on the candidate, the condition
under which the source executes `break`: `u1 <= std::pow(x, alpha - 1.0f)` when `p > 1.0`,
`u1 <= std::exp(-x)` otherwise. -/
def gsAccept (lib : CLib) (alpha u u1 : ℚ) : Bool :=
  if gsP lib alpha u > 1 then decide (u1 ≤ lib.pow (gsX lib alpha u) (alpha - 1))
  else decide (u1 ≤ lib.exp (-(gsX lib alpha u)))

/-- The last branch of `gammavariate` (`alpha` neither above nor equal to 1, "ALGORITHM GS").
The body of its `while (true)` ends on every path in `break` or in `return x * beta`, so it
runs once: after `break` control reaches the closing brace of the function, which has no
`return` statement there. -/
def gammavariateGS (lib : CLib) (alpha beta : ℚ) (e : Engine) : Outcome ℚ × Engine :=
  let u := (random lib e).1
  let e1 := (random lib e).2
  let x := gsX lib alpha u
  let u1 := (random lib e1).1
  let e2 := (random lib e1).2
  if gsAccept lib alpha u u1 = true then (.noReturn, e2)
  else (.value (x * beta), e2)

/-- Embeds `float gammavariate(float alpha, float beta)` -/
def gammavariate (lib : CLib) (alpha beta : ℚ) (fuel : Nat) (e : Engine) :
    Outcome ℚ × Engine :=
  if alpha < 0 ∨ beta < 0 then
    (.raised .invalidArgument, e)
  else if alpha > 1 then
    let ainv := lib.sqrt (2 * alpha - 1)
    let bbb := alpha - lib.log 4
    let ccc := alpha + ainv
    gammavariateCheng lib alpha beta ainv bbb ccc fuel e
  else if alpha = 1 then
    gammavariateOne lib beta fuel (random lib e).1 (random lib e).2
  else
    gammavariateGS lib alpha beta e

/-- Embeds `float betavariate(float alpha, float beta)` -/
def betavariate (lib : CLib) (alpha beta : ℚ) (fuel : Nat) (e : Engine) :
    Outcome ℚ × Engine :=
  match gammavariate lib alpha 1 fuel e with
  | (.value y, e1) =>
    if y ≠ 0 then
      match gammavariate lib beta 1 fuel e1 with
      | (.value g, e2) => (.value (y / (y + g)), e2)
      | (o, e2) => (o, e2)
    else (.value y, e1)
  | (o, e1) => (o, e1)

/-- Embeds `float normalvariate(float mu, float sigma)` -/
def normalvariate (lib : CLib) (mu sigma : ℚ) : Nat → Engine → Outcome ℚ × Engine
  | 0, e => (.diverged, e)
  | fuel + 1, e =>
    let u1 := (random lib e).1
    let e1 := (random lib e).2
    let u2 := 1 - (random lib e1).1
    let e2 := (random lib e1).2
    let z := NV_MAGICCONST lib * (u1 - 0.5) / u2
    let zz := z * z / 4
    if zz ≤ -(lib.log u2) then (.value (mu + z * sigma), e2)
    else normalvariate lib mu sigma fuel e2

/-- The `while (true)` loop of `vonmisesvariate`; it leaves through `break` with `f` set. -/
def vonmisesLoop (lib : CLib) (kappa r : ℚ) : Nat → Engine → Outcome ℚ × Engine
  | 0, e => (.diverged, e)
  | fuel + 1, e =>
    let u1 := (random lib e).1
    let e1 := (random lib e).2
    let z := lib.cos (lib.M_PI * u1)
    let f := (1 + r * z) / (r + z)
    let c := kappa * (r - f)
    let u2 := (random lib e1).1
    let e2 := (random lib e1).2
    if u2 < c * (2 - c) ∨ u2 ≤ c * lib.exp (1 - c) then (.value f, e2)
    else vonmisesLoop lib kappa r fuel e2

/-- Embeds `float vonmisesvariate(float mu, float kappa)` -/
def vonmisesvariate (lib : CLib) (mu kappa : ℚ) (fuel : Nat) (e : Engine) :
    Outcome ℚ × Engine :=
  if kappa ≤ 1e-6 then
    (.value (2 * lib.M_PI * (random lib e).1), (random lib e).2)
  else
    let a := 1 + lib.sqrt (1 + 4 * kappa * kappa)
    let b := (a - lib.sqrt (2 * a)) / (2 * kappa)
    let r := (1 + b * b) / (2 * b)
    match vonmisesLoop lib kappa r fuel e with
    | (.value f, e2) =>
      let u3 := (random lib e2).1
      let e3 := (random lib e2).2
      if u3 > 0.5 then (.value (lib.fmod mu (2 * lib.M_PI) + lib.acos f), e3)
      else (.value (lib.fmod mu (2 * lib.M_PI) - lib.acos f), e3)
    | (o, e2) => (o, e2)

/-- Embeds `float paretovariate(float alpha)` -/
def paretovariate (lib : CLib) (alpha : ℚ) (e : Engine) : ℚ × Engine :=
  let u := 1 - (random lib e).1
  (1 / lib.pow u (1 / alpha), (random lib e).2)

/-- Embeds `float weibullvariate(float alpha, float beta)` -/
def weibullvariate (lib : CLib) (alpha beta : ℚ) (e : Engine) : ℚ × Engine :=
  let u := 1 - (random lib e).1
  (alpha * lib.pow (-(lib.log u)) (1 / beta), (random lib e).2)

/-- Embeds `bool probability(float probability_)` -/
def probability (lib : CLib) (probability_ : ℚ) (e : Engine) : Bool × Engine :=
  let r := (uniform lib 0 1 e).1
  (decide (r ≤ probability_), (uniform lib 0 1 e).2)

/-! ## Generator state, seeding, and `gauss` -/

/-- The state the library acts on: the file-level `seed_value`, the hidden state of
`std::rand()`, and the file-level `std::random_device rd`, given by the values `rd()` is
going to return (they come from the environment and no function of the library sets them). -/
structure World where
  seed_value : Nat
  engine : Engine
  rd : Engine

/-- Embeds `static void initialize() { std::srand(seed_value); }`. -/
def initEngine (lib : CLib) (w : World) : World :=
  { w with engine := ⟨lib.srand w.seed_value, 0⟩ }

/-- Embeds `void seed(unsigned a) { seed_value = a; initialize(); }`. -/
def seed (lib : CLib) (a : Nat) (w : World) : World :=
  initEngine lib { w with seed_value := a }

/-- Embeds `void reset() { initialize(); }`. -/
def reset (lib : CLib) (w : World) : World :=
  initEngine lib w

/-- Embeds `float gauss(float mu, float sigma)`: a `std::mt19937` seeded with a fresh value
of `rd()` feeds a `std::normal_distribution<float>(mu, sigma)`. -/
def gauss (lib : CLib) (mu sigma : ℚ) (w : World) : ℚ × World :=
  (lib.normal_distribution w.rd.rand.1 mu sigma, { w with rd := w.rd.rand.2 })

/-- A call of the public interface with its arguments: the draw operations, `seed(a)` and
`reset()`.  The argument-less `seed()`, which seeds from `std::time(0)`, is not among them. -/
inductive Op where
  | seed (a : Nat)
  | reset
  | randrangeStop (stop : Int)
  | randrange (start stop step : Int)
  | randint (a b : Int)
  | random
  | uniform (a b : ℚ)
  | triangular (low high c : ℚ)
  | betavariate (alpha beta : ℚ)
  | expovariate (lambda : ℚ)
  | gammavariate (alpha beta : ℚ)
  | gauss (mu sigma : ℚ)
  | normalvariate (mu sigma : ℚ)
  | vonmisesvariate (mu kappa : ℚ)
  | paretovariate (alpha : ℚ)
  | weibullvariate (alpha beta : ℚ)
  | probability (p : ℚ)
  | sample (a b : Int) (k : Nat) (unique : Bool)

/-- A value returned by a call of the public interface. -/
inductive Val where
  | unit
  | int (i : Int)
  | float (x : ℚ)
  | bool (b : Bool)
  | ints (l : List Int)
  deriving DecidableEq

/-- Applies `f` to the value of an outcome. -/
def Outcome.map {α β : Type} (f : α → β) : Outcome α → Outcome β
  | .value v => .value (f v)
  | .raised err => .raised err
  | .noReturn => .noReturn
  | .diverged => .diverged

/-- A call that acts on the state of `std::rand()` only, seen as acting on the world. -/
def onEngine {α : Type} (f : α → Val) (w : World) (r : Outcome α × Engine) :
    Outcome Val × World :=
  (r.1.map f, { w with engine := r.2 })

/-- One call of the public interface: its outcome and the world after it.  `fuel` bounds
the iterations of each loop the call runs. -/
def call (lib : CLib) (fuel : Nat) : Op → World → Outcome Val × World
  | .seed a, w => (.value .unit, seed lib a w)
  | .reset, w => (.value .unit, reset lib w)
  | .randrangeStop stop, w => onEngine .int w (randrangeStop stop w.engine)
  | .randrange start stop step, w => onEngine .int w (randrange start stop step w.engine)
  | .randint a b, w => onEngine .int w (randint a b w.engine)
  | .random, w => (.value (.float (random lib w.engine).1),
      { w with engine := (random lib w.engine).2 })
  | .uniform a b, w => (.value (.float (uniform lib a b w.engine).1),
      { w with engine := (uniform lib a b w.engine).2 })
  | .triangular low high c, w => (.value (.float (triangular lib low high c w.engine).1),
      { w with engine := (triangular lib low high c w.engine).2 })
  | .betavariate alpha beta, w => onEngine .float w (betavariate lib alpha beta fuel w.engine)
  | .expovariate lambda, w => onEngine .float w (expovariate lib lambda fuel w.engine)
  | .gammavariate alpha beta, w => onEngine .float w (gammavariate lib alpha beta fuel w.engine)
  | .gauss mu sigma, w => (.value (.float (gauss lib mu sigma w).1), (gauss lib mu sigma w).2)
  | .normalvariate mu sigma, w => onEngine .float w (normalvariate lib mu sigma fuel w.engine)
  | .vonmisesvariate mu kappa, w =>
      onEngine .float w (vonmisesvariate lib mu kappa fuel w.engine)
  | .paretovariate alpha, w => (.value (.float (paretovariate lib alpha w.engine).1),
      { w with engine := (paretovariate lib alpha w.engine).2 })
  | .weibullvariate alpha beta, w =>
      (.value (.float (weibullvariate lib alpha beta w.engine).1),
        { w with engine := (weibullvariate lib alpha beta w.engine).2 })
  | .probability p, w => (.value (.bool (probability lib p w.engine).1),
      { w with engine := (probability lib p w.engine).2 })
  | .sample a b k unique, w => onEngine .ints w (sample a b k unique fuel w.engine)

/-- The outcomes of a sequence of calls made one after the other, first call first.  A call
that throws, and a call that ends without a return value, is followed by the next call, made
in the world the call left.  A run ends with the first call whose loop is still running when
the bound `fuel` is reached (`diverged`): within the bound the calls after it are not
made. -/
def run (lib : CLib) (fuel : Nat) : List Op → World → List (Outcome Val)
  | [], _ => []
  | op :: ops, w =>
    match (call lib fuel op w).1 with
    | .diverged => [.diverged]
    | o => o :: run lib fuel ops (call lib fuel op w).2

/-- Whether a call is a call of `gauss`. -/
def Op.isGauss : Op → Bool
  | .gauss _ _ => true
  | _ => false

/-! ## A concrete library -/

/-- One step of the generator the C standard gives as its example of `rand`:
`next = next * 1103515245 + 12345` on a 32-bit `unsigned long`. -/
def lcgNext (s : Nat) : Nat :=
  (s * 1103515245 + 12345) % 2 ^ 32

/-- State of the example generator after `i + 1` steps from the seed `s`. -/
def lcgState (s : Nat) : Nat → Nat
  | 0 => lcgNext s
  | i + 1 => lcgNext (lcgState s i)

/-- A concrete `CLib` at which statements are evaluated.  `RAND_MAX` is the smallest value
the C standard allows and `srand`/`rand` are the standard's example generator,
`(next / 65536) % 32768`.  The functions of `<cmath>` and the normal sampler are given by
simple rational expressions that stand in for them; of the normal sampler only the fact that
its value changes with the seed of its engine is used. -/
def refLib : CLib where
  RAND_MAX := 32767
  RAND_MAX_ge := Nat.le_refl 32767
  srand := fun s i => (lcgState s i / 65536) % 32768
  M_E := 2.718281828459045
  M_PI := 3.141592653589793
  log := fun x => x - 1
  exp := fun x => 1 + x
  sqrt := fun x => (x + 1) / 2
  pow := fun x y => if x = 0 then 0 else 1 + y * (x - 1)
  cos := fun x => 1 - x * x / 2
  acos := fun x => 1.5707963267948966 - x
  fmod := fun x y => x - y * ((x / y).floor : ℚ)
  normal_distribution := fun s mu sigma => mu + sigma * (((s % 2001 : Nat) : ℚ) - 1000) / 500

/-! ## Theorems -/

/-! ### Truncating division -/

/-- For a positive divisor, the truncated quotient times the divisor lies within one divisor
of the dividend, on the side of zero. -/
theorem tdiv_bounds {a b : Int} (hb : 0 < b) :
    (0 ≤ a → b * a.tdiv b ≤ a ∧ a < b * a.tdiv b + b) ∧
    (a ≤ 0 → a ≤ b * a.tdiv b ∧ b * a.tdiv b - b < a) := by
  have key := Int.tmod_add_tdiv a b
  constructor
  · intro ha
    have h1 := Int.tmod_nonneg b ha
    have h2 := Int.tmod_lt_of_pos a hb
    constructor <;> linarith
  · intro ha
    have key2 := Int.tmod_add_tdiv (-a) b
    rw [Int.neg_tdiv] at key2
    have h1 := Int.tmod_nonneg b (show 0 ≤ -a by omega)
    have h2 := Int.tmod_lt_of_pos (-a) hb
    constructor <;> linarith

/-- For a positive divisor the truncated quotient is positive exactly when the dividend
reaches the divisor. -/
theorem tdiv_pos_iff {a b : Int} (hb : 0 < b) : 0 < a.tdiv b ↔ b ≤ a := by
  have hB := @tdiv_bounds a b hb
  constructor
  · intro h
    rcases le_or_lt 0 a with ha | ha
    · have := (hB.1 ha).1
      nlinarith
    · have := (hB.2 ha.le).2
      nlinarith
  · intro h
    have := (hB.1 (by omega)).2
    by_contra hq
    push_neg at hq
    nlinarith

/-- The remainder `std::rand() % n` lies in `[0, n)` when `n` is positive, and one value of
the engine is used. -/
theorem randbelow_spec (n : Int) (e : Engine) (hn : 0 < n) :
    0 ≤ (_randbelow n e).1 ∧ (_randbelow n e).1 < n ∧ (_randbelow n e).2 = e.rand.2 := by
  refine ⟨?_, ?_, rfl⟩
  · exact Int.tmod_nonneg n (Int.ofNat_nonneg _)
  · exact Int.tmod_lt_of_pos _ hn

/-! ### `randrange` and `randint` -/

/-- A value returned by `randrange` is `start + step * m` for an index `m ≥ 0` that keeps it
on the near side of `stop`; the engine has advanced by one draw. -/
theorem randrange_value_index (start stop step : Int) (e e2 : Engine) (v : Int)
    (h : randrange start stop step e = (.value v, e2)) :
    ∃ m : Int, v = start + step * m ∧ 0 ≤ m ∧ e2 = e.rand.2 ∧
      ((0 < step ∧ step * m < stop - start) ∨ (step < 0 ∧ stop - start < step * m)) := by
  unfold randrange at h
  simp only at h
  split_ifs at h with h1 h2 h3 h4 h5 h6
  · obtain ⟨hs, hw⟩ := h1
    obtain ⟨r0, r1, r2⟩ := randbelow_spec (stop - start) e hw
    simp only [Prod.mk.injEq, Outcome.value.injEq] at h
    refine ⟨(_randbelow (stop - start) e).1, ?_, r0, ?_, Or.inl ⟨by omega, ?_⟩⟩
    · rw [hs, one_mul]; exact h.1.symm
    · rw [← h.2, r2]
    · rw [hs, one_mul]; exact r1
  · simp at h
  · simp at h
  · have hn : 0 < (stop - start + step - 1).tdiv step := by omega
    obtain ⟨r0, r1, r2⟩ := randbelow_spec _ e hn
    have hB := (@tdiv_bounds (stop - start + step - 1) step h3).1
      (by have := (tdiv_pos_iff h3).1 hn; omega)
    simp only [Prod.mk.injEq, Outcome.value.injEq] at h
    refine ⟨(_randbelow ((stop - start + step - 1).tdiv step) e).1, h.1.symm, r0, ?_,
      Or.inl ⟨h3, ?_⟩⟩
    · rw [← h.2, r2]
    · nlinarith [hB.1]
  · simp at h
  · have hn : 0 < (stop - start + step + 1).tdiv step := by omega
    obtain ⟨r0, r1, r2⟩ := randbelow_spec _ e hn
    have hpos : 0 < -step := by omega
    have hq : (-(stop - start + step + 1)).tdiv (-step) = (stop - start + step + 1).tdiv step :=
      Int.neg_tdiv_neg _ _
    have hn2 : 0 < (-(stop - start + step + 1)).tdiv (-step) := by rw [hq]; exact hn
    have hB := (@tdiv_bounds (-(stop - start + step + 1)) (-step) hpos).1
      (by have := (tdiv_pos_iff hpos).1 hn2; omega)
    rw [hq] at hB
    simp only [Prod.mk.injEq, Outcome.value.injEq] at h
    refine ⟨(_randbelow ((stop - start + step + 1).tdiv step) e).1, h.1.symm, r0, ?_,
      Or.inr ⟨h5, ?_⟩⟩
    · rw [← h.2, r2]
    · nlinarith [hB.1]
  · simp at h

/-- Claim C1.  Whenever `randrange(start, stop, step)` returns a value `v`, the step is not
zero, `v - start` is a multiple of `step` (its C++ remainder by `step` is zero), and `v` lies
in the half-open range: `start ≤ v < stop` for a positive step, `stop < v ≤ start` for a
negative one.  In particular a value returned by `randrange(stop)` lies in `[0, stop)`. -/
theorem randrange_value_in_range (start stop step : Int) (e e2 : Engine) (v : Int)
    (h : randrange start stop step e = (.value v, e2)) :
    step ≠ 0 ∧ step ∣ (v - start) ∧ (v - start).tmod step = 0 ∧
    (0 < step → start ≤ v ∧ v < stop) ∧ (step < 0 → stop < v ∧ v ≤ start) ∧
    (∀ (v0 : Int) (e0 : Engine),
      randrangeStop stop e = (.value v0, e0) → 0 ≤ v0 ∧ v0 < stop) := by
  obtain ⟨m, hv, hm, -, hside⟩ := randrange_value_index start stop step e e2 v h
  have hdvd : step ∣ (v - start) := ⟨m, by rw [hv]; ring⟩
  refine ⟨?_, hdvd, Int.tmod_eq_zero_of_dvd hdvd, ?_, ?_, ?_⟩
  · rcases hside with ⟨hs, -⟩ | ⟨hs, -⟩ <;> omega
  · intro hs
    rcases hside with ⟨-, hlt⟩ | ⟨hneg, -⟩
    · constructor
      · nlinarith
      · linarith
    · omega
  · intro hs
    rcases hside with ⟨hpos, -⟩ | ⟨-, hlt⟩
    · omega
    · constructor
      · linarith
      · nlinarith
  · intro v0 e0 h0
    obtain ⟨m0, hv0, hm0, -, hside0⟩ := randrange_value_index 0 stop 1 e e0 v0 h0
    rcases hside0 with ⟨-, hlt⟩ | ⟨hneg, -⟩
    · omega
    · omega

/-- Witness of `randrange_value_in_range`: `randrange(1, 6, 2)` on the engine output 7. -/
theorem randrange_value_in_range_witness :
    randrange 1 6 2 ⟨fun _ => 7, 0⟩ = (.value 3, ⟨fun _ => 7, 1⟩) ∧
    ((2 : Int) ≠ 0 ∧ (2 : Int) ∣ (3 - 1) ∧ ((3 : Int) - 1).tmod 2 = 0 ∧
    ((0 : Int) < 2 → (1 : Int) ≤ 3 ∧ (3 : Int) < 6) ∧
    ((2 : Int) < 0 → (6 : Int) < 3 ∧ (3 : Int) ≤ 1) ∧
    (∀ (v0 : Int) (e0 : Engine),
      randrangeStop 6 ⟨fun _ => 7, 0⟩ = (.value v0, e0) → 0 ≤ v0 ∧ v0 < 6)) :=
  ⟨rfl, randrange_value_in_range 1 6 2 ⟨fun _ => 7, 0⟩ ⟨fun _ => 7, 1⟩ 3 rfl⟩

/-- The three ways `randrange` ends, each decided by the arguments: a zero step throws
"zero step"; a non-zero step pointing away from `stop` (or `stop = start`) throws "empty
range"; every other call returns a value and uses one draw. -/
theorem randrange_outcome (start stop step : Int) (e : Engine) :
    (step = 0 → randrange start stop step e = (.raised .zeroStep, e)) ∧
    (step ≠ 0 → ((0 < step ∧ stop ≤ start) ∨ (step < 0 ∧ start ≤ stop)) →
      randrange start stop step e = (.raised .emptyRange, e)) ∧
    (step ≠ 0 → ¬ ((0 < step ∧ stop ≤ start) ∨ (step < 0 ∧ start ≤ stop)) →
      ∃ v, randrange start stop step e = (.value v, e.rand.2)) := by
  refine ⟨?_, ?_, ?_⟩
  · intro hs
    subst hs
    simp [randrange]
  · intro hs hempty
    unfold randrange
    simp only
    split_ifs with h1 h2 h3 h4 h5 h6
    · omega
    · rfl
    · rfl
    · exfalso
      have := (tdiv_pos_iff (a := stop - start + step - 1) h3).1 (by omega)
      omega
    · rfl
    · exfalso
      have hq : (-(stop - start + step + 1)).tdiv (-step) = (stop - start + step + 1).tdiv step :=
        Int.neg_tdiv_neg _ _
      have := (tdiv_pos_iff (a := -(stop - start + step + 1)) (b := -step) (by omega)).1
        (by rw [hq]; omega)
      omega
    · omega
  · intro hs hne
    unfold randrange
    simp only
    split_ifs with h1 h2 h3 h4 h5 h6
    · exact ⟨_, rfl⟩
    · omega
    · exfalso
      have := (tdiv_pos_iff (a := stop - start + step - 1) h3).2 (by omega)
      omega
    · exact ⟨_, rfl⟩
    · exfalso
      have hq : (-(stop - start + step + 1)).tdiv (-step) = (stop - start + step + 1).tdiv step :=
        Int.neg_tdiv_neg _ _
      have := (tdiv_pos_iff (a := -(stop - start + step + 1)) (b := -step) (by omega)).2
        (by omega)
      omega
    · exact ⟨_, rfl⟩
    · omega

/-- With `int` arithmetic read as exact: for `a < b`, `randint(a, b)` does not throw, it
returns a value `v` with `a ≤ v ≤ b`, both ends included, and uses one draw. -/
theorem randint_in_closed_range (a b : Int) (e : Engine) (hab : a < b) :
    ∃ v, randint a b e = (.value v, e.rand.2) ∧ a ≤ v ∧ v ≤ b := by
  obtain ⟨v, hv⟩ := (randrange_outcome a (b + 1) 1 e).2.2 (by omega) (by omega)
  obtain ⟨m, hm, hm0, -, hside⟩ := randrange_value_index a (b + 1) 1 e _ v hv
  refine ⟨v, hv, ?_, ?_⟩
  · rcases hside with ⟨-, hlt⟩ | ⟨hneg, -⟩ <;> omega
  · rcases hside with ⟨-, hlt⟩ | ⟨hneg, -⟩ <;> omega

/-! ### 32-bit `int`: agreement with the exact reading, and `randint` -/

/-- Reduction to 32 bits leaves a value of the `int` range unchanged. -/
theorem wrapInt_of_range (x : Int) (h0 : INT_MIN ≤ x) (h1 : x ≤ INT_MAX) : wrapInt x = x := by
  unfold INT_MIN at h0
  unfold INT_MAX at h1
  unfold wrapInt
  omega

/-- Conversion to `unsigned` does not see a reduction to 32 bits. -/
theorem toUnsigned_wrapInt (x : Int) : toUnsigned (wrapInt x) = toUnsigned x := by
  unfold toUnsigned wrapInt
  norm_num
  omega

/-- When `b + 1` and `(b + 1) - a` are representable, `randint(a, b)` on 32-bit `int` is
`randint(a, b)` with exact arithmetic. -/
theorem randint32_eq_randint (a b : Int) (ha : INT_MIN ≤ a) (hb0 : INT_MIN ≤ b)
    (hb : b < INT_MAX) (hw0 : INT_MIN ≤ b + 1 - a) (hw : b + 1 - a ≤ INT_MAX) (e : Engine) :
    randint32 a b e = randint a b e := by
  have h1 : wrapInt (b + 1) = b + 1 := wrapInt_of_range _ (by omega) (by omega)
  have h2 : wrapInt (b + 1 - a) = b + 1 - a := wrapInt_of_range _ hw0 hw
  unfold randint32 randint randrange32 randrange
  simp only [h1, h2, true_and]
  split_ifs with hpos
  · obtain ⟨r0, r1, -⟩ := randbelow_spec (b + 1 - a) e hpos
    rw [wrapInt_of_range _ (by omega) (by omega)]
  · rfl

/-- Claim C2, as amended.  On 32-bit `int`, for `a < b` with `b + 1` and `(b + 1) - a`
representable, `randint(a, b)` does not throw: it returns a value `v` with `a ≤ v ≤ b`, both
ends included, and uses one draw. -/
theorem randint32_in_closed_range (a b : Int) (e : Engine) (ha : INT_MIN ≤ a)
    (hb : b < INT_MAX) (hab : a < b) (hw : b + 1 - a ≤ INT_MAX) :
    ∃ v, randint32 a b e = (.value v, e.rand.2) ∧ a ≤ v ∧ v ≤ b := by
  rw [randint32_eq_randint a b ha (by omega) hb (by unfold INT_MIN; omega) hw e]
  exact randint_in_closed_range a b e hab

/-- Witness of `randint32_in_closed_range`: `randint(-10, -5)` on the engine output 7. -/
theorem randint32_in_closed_range_witness :
    INT_MIN ≤ -10 ∧ (-5 : Int) < INT_MAX ∧ (-10 : Int) < -5 ∧ (-5 : Int) + 1 - (-10) ≤ INT_MAX ∧
    ∃ v, randint32 (-10) (-5) ⟨fun _ => 7, 0⟩ =
        (.value v, (Engine.rand ⟨fun _ => 7, 0⟩).2) ∧ -10 ≤ v ∧ v ≤ -5 :=
  ⟨by decide, by decide, by decide, by decide,
    randint32_in_closed_range (-10) (-5) ⟨fun _ => 7, 0⟩ (by decide) (by decide) (by decide)
      (by decide)⟩

/-- Counterexample to claim C2 as stated.  For `a = -1` and `b = 2147483646` both `b + 1` and
`b - a` are `INT_MAX`, so neither overflows, and `a < b`.  In `randrange(a, b + 1)` the width
`stop - start` is `2 ^ 31`, which does not fit: it wraps to `INT_MIN`, the test `width > 0`
fails and the call throws "empty range". -/
theorem randint32_width_overflow :
    (-1 : Int) < 2147483646 ∧ (2147483646 : Int) + 1 ≤ INT_MAX ∧
    (2147483646 : Int) - (-1) ≤ INT_MAX ∧
    wrapInt (2147483646 + 1 - (-1)) = INT_MIN ∧
    (randint32 (-1) 2147483646 ⟨fun _ => 7, 0⟩).1 = .raised .emptyRange := by
  refine ⟨by decide, by decide, by decide, by decide, by decide⟩

/-- Claim C3.  How `randrange(start, stop, step)` ends is decided by its arguments, whatever
the engine holds: it throws "zero step" exactly when `step = 0`; it throws "empty range"
exactly when `step ≠ 0` and the progression is empty (`step > 0` and `stop ≤ start`, or
`step < 0` and `stop ≥ start`); in every other case it returns a value.  The same error, or a
value, results on every other engine. -/
theorem randrange_outcome_by_arguments (start stop step : Int) (e : Engine) :
    ((randrange start stop step e).1 = .raised .zeroStep ↔ step = 0) ∧
    ((randrange start stop step e).1 = .raised .emptyRange ↔
      step ≠ 0 ∧ ((0 < step ∧ stop ≤ start) ∨ (step < 0 ∧ stop ≥ start))) ∧
    ((randrange start stop step e).1 ≠ .raised .zeroStep →
      (randrange start stop step e).1 ≠ .raised .emptyRange →
      ∃ v, (randrange start stop step e).1 = .value v) ∧
    (∀ e0 : Engine,
      (∀ err, (randrange start stop step e0).1 = .raised err ↔
        (randrange start stop step e).1 = .raised err) ∧
      ((∃ v, (randrange start stop step e0).1 = .value v) ↔
        ∃ v, (randrange start stop step e).1 = .value v)) := by
  have key : ∀ e1 : Engine,
      (step = 0 ∧ (randrange start stop step e1).1 = .raised .zeroStep) ∨
      (step ≠ 0 ∧ ((0 < step ∧ stop ≤ start) ∨ (step < 0 ∧ start ≤ stop)) ∧
        (randrange start stop step e1).1 = .raised .emptyRange) ∨
      (step ≠ 0 ∧ ¬ ((0 < step ∧ stop ≤ start) ∨ (step < 0 ∧ start ≤ stop)) ∧
        ∃ v, (randrange start stop step e1).1 = .value v) := by
    intro e1
    obtain ⟨hz, hemp, hval⟩ := randrange_outcome start stop step e1
    by_cases hs : step = 0
    · exact Or.inl ⟨hs, by rw [hz hs]⟩
    · by_cases hc : (0 < step ∧ stop ≤ start) ∨ (step < 0 ∧ start ≤ stop)
      · exact Or.inr (Or.inl ⟨hs, hc, by rw [hemp hs hc]⟩)
      · obtain ⟨v, hv⟩ := hval hs hc
        exact Or.inr (Or.inr ⟨hs, hc, v, by rw [hv]⟩)
  refine ⟨?_, ?_, ?_, ?_⟩
  · rcases key e with ⟨hs, h⟩ | ⟨hs, hc, h⟩ | ⟨hs, hc, v, h⟩
    · simp only [h, true_iff]
      exact hs
    · simp [h, hs]
    · simp [h, hs]
  · rcases key e with ⟨hs, h⟩ | ⟨hs, hc, h⟩ | ⟨hs, hc, v, h⟩
    · rw [h]
      constructor
      · intro hfalse
        cases hfalse
      · rintro ⟨hne, -⟩
        exact absurd hs hne
    · simp only [h, true_iff]
      exact ⟨hs, hc⟩
    · simp only [h, false_iff, reduceCtorEq]
      rintro ⟨-, hc2⟩
      exact hc hc2
  · intro h1 h2
    rcases key e with ⟨hs, h⟩ | ⟨hs, hc, h⟩ | ⟨hs, hc, v, h⟩
    · exact absurd h h1
    · exact absurd h h2
    · exact ⟨v, h⟩
  · intro e0
    rcases key e with ⟨hs, h⟩ | ⟨hs, hc, h⟩ | ⟨hs, hc, v, h⟩ <;>
    rcases key e0 with ⟨hs0, h0⟩ | ⟨hs0, hc0, h0⟩ | ⟨hs0, hc0, v0, h0⟩ <;>
    first
      | exact absurd hs hs0
      | exact absurd hs0 hs
      | exact absurd hc hc0
      | exact absurd hc0 hc
      | simp [h, h0]

/-! ### `sample` -/

/-- A value returned by `randint(a, b)` lies in `[a, b]`, and the call uses one draw. -/
theorem randint_value_spec (a b : Int) (e e1 : Engine) (v : Int)
    (h : randint a b e = (.value v, e1)) : a ≤ v ∧ v ≤ b ∧ e1 = e.rand.2 := by
  obtain ⟨m, hv, hm, he, hside⟩ := randrange_value_index a (b + 1) 1 e e1 v h
  rcases hside with ⟨-, hlt⟩ | ⟨hneg, -⟩
  · exact ⟨by omega, by omega, he⟩
  · omega

/-- Removing duplicates (keeping last occurrences) ignores an element that occurs again
further on. -/
theorem dedup_append_cons_of_mem {v : Int} (l1 l2 : List Int) (hv : v ∈ l2) :
    (l1 ++ v :: l2).dedup = (l1 ++ l2).dedup := by
  induction l1 with
  | nil => simpa using List.dedup_cons_of_mem hv
  | cons x l1 ih =>
    by_cases hx : x ∈ l1 ++ l2
    · have hx2 : x ∈ l1 ++ v :: l2 := by
        rcases List.mem_append.1 hx with h | h
        · exact List.mem_append.2 (Or.inl h)
        · exact List.mem_append.2 (Or.inr (List.mem_cons_of_mem _ h))
      rw [List.cons_append, List.cons_append, List.dedup_cons_of_mem hx2,
        List.dedup_cons_of_mem hx, ih]
    · have hx2 : x ∉ l1 ++ v :: l2 := by
        intro h
        rcases List.mem_append.1 h with h | h
        · exact hx (List.mem_append.2 (Or.inl h))
        · rcases List.mem_cons.1 h with h | h
          · exact hx (List.mem_append.2 (Or.inr (h ▸ hv)))
          · exact hx (List.mem_append.2 (Or.inr h))
      rw [List.cons_append, List.cons_append, List.dedup_cons_of_not_mem hx2,
        List.dedup_cons_of_not_mem hx, ih]

/-- Invariant of the loop of `sample` with `unique == true`: started on a duplicate-free
vector `acc` within `[a, b]` of length at most `k`, a returned vector has length `k`, is
duplicate-free and within `[a, b]`, and consists of `acc` followed by the first occurrences
of the values drawn, in draw order. -/
theorem sampleLoop_unique_spec (a b : Int) (k : Nat) :
    ∀ (fuel : Nat) (acc : List Int) (e : Engine) (res : List Int) (e2 : Engine),
      sampleLoop a b k true fuel acc e = (.value res, e2) →
      acc.Nodup → (∀ v ∈ acc, a ≤ v ∧ v ≤ b) → acc.length ≤ k →
      res.length = k ∧ res.Nodup ∧ (∀ v ∈ res, a ≤ v ∧ v ≤ b) ∧
      e2.outputs = e.outputs ∧ e.pos ≤ e2.pos ∧
      res.reverse = (acc ++ randintDraws a b (e2.pos - e.pos) e).reverse.dedup := by
  intro fuel
  induction fuel with
  | zero =>
    intro acc e res e2 h hnd hin hlen
    unfold sampleLoop at h
    split_ifs at h with hk
    · simp at h
    · simp only [Prod.mk.injEq, Outcome.value.injEq] at h
      obtain ⟨rfl, rfl⟩ := h
      refine ⟨by omega, hnd, hin, rfl, le_refl _, ?_⟩
      simp only [Nat.sub_self, randintDraws, List.append_nil]
      exact (List.Nodup.dedup (List.nodup_reverse.2 hnd)).symm
  | succ fuel ih =>
    intro acc e res e2 h hnd hin hlen
    unfold sampleLoop at h
    split_ifs at h with hk
    · cases hr : randint a b e with
      | mk o e1 =>
        rw [hr] at h
        cases o with
        | raised err => simp at h
        | noReturn => simp at h
        | diverged => simp at h
        | value v =>
          obtain ⟨hva, hvb, he1⟩ := randint_value_spec a b e e1 v hr
          have hpos : e1.pos = e.pos + 1 := by rw [he1]; rfl
          have hout : e1.outputs = e.outputs := by rw [he1]; rfl
          simp only [Bool.not_true, Bool.false_or, Bool.not_eq_true'] at h
          split_ifs at h with hc
          · have hmem : v ∉ acc := by
              intro hv
              have : acc.contains v = true := List.elem_iff.2 hv
              rw [hc] at this
              cases this
            have hnd2 : (acc ++ [v]).Nodup := by
              rw [List.nodup_append]
              refine ⟨hnd, List.nodup_singleton v, ?_⟩
              intro x hx1 hx2
              rw [List.mem_singleton] at hx2
              exact hmem (hx2 ▸ hx1)
            have hin2 : ∀ x ∈ acc ++ [v], a ≤ x ∧ x ≤ b := by
              intro x hx
              rcases List.mem_append.1 hx with hx | hx
              · exact hin x hx
              · rw [List.mem_singleton] at hx
                subst hx
                exact ⟨hva, hvb⟩
            have hlen2 : (acc ++ [v]).length ≤ k := by
              rw [List.length_append, List.length_singleton]; omega
            obtain ⟨r1, r2, r3, r4, r5, r6⟩ := ih (acc ++ [v]) e1 res e2 h hnd2 hin2 hlen2
            refine ⟨r1, r2, r3, by rw [r4, hout], by omega, ?_⟩
            have hn : e2.pos - e.pos = (e2.pos - e1.pos) + 1 := by omega
            rw [hn, randintDraws, hr, r6, List.append_assoc, List.singleton_append]
          · have hmem2 : v ∈ acc := by
              rw [Bool.not_eq_false] at hc
              exact List.elem_iff.1 hc
            obtain ⟨r1, r2, r3, r4, r5, r6⟩ := ih acc e1 res e2 h hnd hin hlen
            refine ⟨r1, r2, r3, by rw [r4, hout], by omega, ?_⟩
            have hn : e2.pos - e.pos = (e2.pos - e1.pos) + 1 := by omega
            rw [hn, randintDraws, hr, r6]
            simp only [List.reverse_append, List.reverse_cons, List.append_assoc,
              List.singleton_append]
            exact (dedup_append_cons_of_mem _ _ (List.mem_reverse.2 hmem2)).symm
    · simp only [Prod.mk.injEq, Outcome.value.injEq] at h
      obtain ⟨rfl, rfl⟩ := h
      refine ⟨by omega, hnd, hin, rfl, le_refl _, ?_⟩
      simp only [Nat.sub_self, randintDraws, List.append_nil]
      exact (List.Nodup.dedup (List.nodup_reverse.2 hnd)).symm

/-- With `int` arithmetic read as exact: whenever `sample(a, b, k, true)` returns a vector,
the vector has exactly `k` elements, none of them twice, each within `[a, b]`; and it lists
the values drawn by the successive `randint(a, b)` calls in draw order, each at its first
occurrence. -/
theorem sample_unique_spec (a b : Int) (k fuel : Nat) (e e2 : Engine) (res : List Int)
    (h : sample a b k true fuel e = (.value res, e2)) :
    res.length = k ∧ res.Nodup ∧ (∀ v ∈ res, a ≤ v ∧ v ≤ b) ∧
    e2.outputs = e.outputs ∧ e.pos ≤ e2.pos ∧
    res.reverse = (randintDraws a b (e2.pos - e.pos) e).reverse.dedup ∧
    res.Sublist (randintDraws a b (e2.pos - e.pos) e) := by
  unfold sample at h
  split_ifs at h with hg
  · simp at h
  have key := sampleLoop_unique_spec a b k fuel [] e res e2 h List.nodup_nil
    (by intro v hv; cases hv) (Nat.zero_le _)
  simp only [List.nil_append] at key
  obtain ⟨r1, r2, r3, r4, r5, r6⟩ := key
  refine ⟨r1, r2, r3, r4, r5, r6, ?_⟩
  have hsub : res.reverse.Sublist (randintDraws a b (e2.pos - e.pos) e).reverse := by
    rw [r6]; exact List.dedup_sublist _
  exact List.reverse_sublist.1 hsub

/-- When `randint(a, b)` agrees on 32-bit and exact `int`, so does the loop of `sample`. -/
theorem sampleLoop32_eq (a b : Int) (k : Nat) (unique : Bool)
    (h : ∀ e, randint32 a b e = randint a b e) :
    ∀ (fuel : Nat) (acc : List Int) (e : Engine),
      sampleLoop32 a b k unique fuel acc e = sampleLoop a b k unique fuel acc e := by
  intro fuel
  induction fuel with
  | zero => intro acc e; rfl
  | succ fuel ih =>
    intro acc e
    unfold sampleLoop32 sampleLoop
    rw [h e]
    simp only [ih]

/-- When `randint(a, b)` agrees on 32-bit and exact `int`, so do the lists of its draws. -/
theorem randintDraws32_eq (a b : Int) (h : ∀ e, randint32 a b e = randint a b e) :
    ∀ (n : Nat) (e : Engine), randintDraws32 a b n e = randintDraws a b n e := by
  intro n
  induction n with
  | zero => intro e; rfl
  | succ n ih =>
    intro e
    unfold randintDraws32 randintDraws
    rw [h e]
    simp only [ih]

/-- Claim C4, as amended.  On 32-bit `int`, for `a`, `b` with `b + 1` and `(b + 1) - a`
representable: whenever `sample(a, b, k, true)` returns a vector, the vector has exactly `k`
elements, none of them twice, each within `[a, b]`; and it lists the values drawn by the
successive `randint(a, b)` calls in draw order, each at its first occurrence (the number of
calls is the number of engine values used; `List.dedup` keeps last occurrences, hence the
reversals). -/
theorem sample32_unique_spec (a b : Int) (k fuel : Nat) (e e2 : Engine) (res : List Int)
    (ha : INT_MIN ≤ a) (hb0 : INT_MIN ≤ b) (hb : b < INT_MAX)
    (hw0 : INT_MIN ≤ b + 1 - a) (hw : b + 1 - a ≤ INT_MAX)
    (h : sample32 a b k true fuel e = (.value res, e2)) :
    res.length = k ∧ res.Nodup ∧ (∀ v ∈ res, a ≤ v ∧ v ≤ b) ∧
    e2.outputs = e.outputs ∧ e.pos ≤ e2.pos ∧
    res.reverse = (randintDraws32 a b (e2.pos - e.pos) e).reverse.dedup ∧
    res.Sublist (randintDraws32 a b (e2.pos - e.pos) e) := by
  have hr := randint32_eq_randint a b ha hb0 hb hw0 hw
  have hs : sample32 a b k true fuel e = sample a b k true fuel e := by
    unfold sample32 sample
    rw [toUnsigned_wrapInt, sampleLoop32_eq a b k true hr]
  rw [hs] at h
  rw [randintDraws32_eq a b hr]
  exact sample_unique_spec a b k fuel e e2 res h

/-- Witness of `sample32_unique_spec`: three distinct values from `[0, 4]` on the engine
outputs 0, 0, 1, 1, 2; the repeated draws are rejected and five draws are used. -/
theorem sample32_unique_spec_witness :
    INT_MIN ≤ 0 ∧ INT_MIN ≤ 4 ∧ (4 : Int) < INT_MAX ∧ INT_MIN ≤ 4 + 1 - 0 ∧
    (4 : Int) + 1 - 0 ≤ INT_MAX ∧
    sample32 0 4 3 true 10 ⟨fun i => i / 2, 0⟩ = (.value [0, 1, 2], ⟨fun i => i / 2, 5⟩) ∧
    (([0, 1, 2] : List Int).length = 3 ∧ ([0, 1, 2] : List Int).Nodup ∧
      (∀ v ∈ ([0, 1, 2] : List Int), 0 ≤ v ∧ v ≤ 4) ∧
      (Engine.mk (fun i => i / 2) 5).outputs = (Engine.mk (fun i => i / 2) 0).outputs ∧
      (Engine.mk (fun i => i / 2) 0).pos ≤ (Engine.mk (fun i => i / 2) 5).pos ∧
      ([0, 1, 2] : List Int).reverse =
        (randintDraws32 0 4 ((Engine.mk (fun i => i / 2) 5).pos -
          (Engine.mk (fun i => i / 2) 0).pos) ⟨fun i => i / 2, 0⟩).reverse.dedup ∧
      ([0, 1, 2] : List Int).Sublist
        (randintDraws32 0 4 ((Engine.mk (fun i => i / 2) 5).pos -
          (Engine.mk (fun i => i / 2) 0).pos) ⟨fun i => i / 2, 0⟩)) :=
  ⟨by decide, by decide, by decide, by decide, by decide, rfl,
    sample32_unique_spec 0 4 3 10 ⟨fun i => i / 2, 0⟩ ⟨fun i => i / 2, 5⟩ [0, 1, 2]
      (by decide) (by decide) (by decide) (by decide) (by decide) rfl⟩

/-- Counterexample to claim C4 as stated.  In `sample(2, INT_MIN, 1, true)` the differences
`b - a` and, inside `randint`, `stop - start` overflow and wrap to positive values: the guard
lets the call through, `randint` takes the width for `INT_MAX` and on the engine output 7
returns `2 + 7`.  The vector returned is `[9]`, and 9 is not within `[2, INT_MIN]`. -/
theorem sample32_overflow_out_of_range :
    wrapInt (INT_MIN - 2) = 2147483646 ∧ wrapInt (wrapInt (INT_MIN + 1) - 2) = INT_MAX ∧
    (sample32 2 INT_MIN 1 true 10 ⟨fun _ => 7, 0⟩).1 = .value [9] ∧
    ¬ ((2 : Int) ≤ 9 ∧ (9 : Int) ≤ INT_MIN) := by
  refine ⟨by decide, by decide, by decide, by decide⟩

/-- The only errors `randrange` throws are "zero step" and "empty range". -/
theorem randrange_raised (start stop step : Int) (e e1 : Engine) (err : Error)
    (h : randrange start stop step e = (.raised err, e1)) :
    err = .zeroStep ∨ err = .emptyRange := by
  obtain ⟨hz, hemp, hval⟩ := randrange_outcome start stop step e
  by_cases hs : step = 0
  · rw [hz hs] at h
    simp only [Prod.mk.injEq, Outcome.raised.injEq] at h
    exact Or.inl h.1.symm
  · by_cases hc : (0 < step ∧ stop ≤ start) ∨ (step < 0 ∧ start ≤ stop)
    · rw [hemp hs hc] at h
      simp only [Prod.mk.injEq, Outcome.raised.injEq] at h
      exact Or.inr h.1.symm
    · obtain ⟨v, hv⟩ := hval hs hc
      rw [hv] at h
      simp at h

/-- The loop of `sample` never throws "range is less than count". -/
theorem sampleLoop_not_rangeLessThanCount (a b : Int) (k : Nat) (unique : Bool) :
    ∀ (fuel : Nat) (acc : List Int) (e : Engine),
      (sampleLoop a b k unique fuel acc e).1 ≠ .raised .rangeLessThanCount := by
  intro fuel
  induction fuel with
  | zero =>
    intro acc e
    unfold sampleLoop
    split_ifs <;> simp
  | succ fuel ih =>
    intro acc e
    unfold sampleLoop
    split_ifs with hk
    · cases hr : randint a b e with
      | mk o e1 =>
        cases o with
        | value v =>
          simp only
          split_ifs
          · exact ih _ _
          · exact ih _ _
        | raised err =>
          simp only
          rcases randrange_raised a (b + 1) 1 e e1 err hr with h | h <;> simp [h]
        | noReturn => simp
        | diverged => simp
    · simp

/-- Conversion to `unsigned` leaves a value in `[0, 2 ^ 32)` unchanged. -/
theorem toUnsigned_of_nonneg (x : Int) (h0 : 0 ≤ x) (h1 : x < 2 ^ 32) :
    (toUnsigned x : Int) = x := by
  unfold toUnsigned
  rw [Int.emod_eq_of_lt h0 h1]
  exact Int.toNat_of_nonneg h0

/-- Claim C5, as amended.  For `a ≤ b` (with `b - a` representable in `int`),
`sample(a, b, k, true)` throws "range is less than count" exactly when `k > b - a`; so it
does whenever `k > (b - a) + 1`, and it does not when `k ≤ b - a`.  With `unique == false`
that error is never thrown. -/
theorem sample_range_guard (a b : Int) (k fuel : Nat) (e : Engine)
    (hab : a ≤ b) (hrange : b - a < 2 ^ 31) :
    ((sample a b k true fuel e).1 = .raised .rangeLessThanCount ↔ (k : Int) > b - a) ∧
    ((k : Int) > (b - a) + 1 → (sample a b k true fuel e).1 = .raised .rangeLessThanCount) ∧
    ((k : Int) ≤ b - a → (sample a b k true fuel e).1 ≠ .raised .rangeLessThanCount) ∧
    (sample a b k false fuel e).1 ≠ .raised .rangeLessThanCount := by
  have hu : (toUnsigned (b - a) : Int) = b - a :=
    toUnsigned_of_nonneg (b - a) (by omega) (by omega)
  have hiff : (sample a b k true fuel e).1 = .raised .rangeLessThanCount ↔ (k : Int) > b - a := by
    unfold sample
    split_ifs with hg
    · simp only [true_iff]
      have := hg.2
      omega
    · constructor
      · intro h
        exact absurd h (sampleLoop_not_rangeLessThanCount a b k true fuel [] e)
      · intro h
        exfalso
        apply hg
        refine ⟨rfl, ?_⟩
        omega
  refine ⟨hiff, ?_, ?_, ?_⟩
  · intro h
    exact hiff.2 (by omega)
  · intro h hraise
    have := hiff.1 hraise
    omega
  · have hg : ¬ ((false : Bool) = true ∧ toUnsigned (b - a) < k) :=
      fun h => Bool.noConfusion h.1
    unfold sample
    rw [if_neg hg]
    exact sampleLoop_not_rangeLessThanCount a b k false fuel [] e

/-- Witness of `sample_range_guard`: the range `[0, 4]` with `k = 5`. -/
theorem sample_range_guard_witness :
    (0 : Int) ≤ 4 ∧ (4 : Int) - 0 < 2 ^ 31 ∧
    (((sample 0 4 5 true 10 ⟨fun i => i, 0⟩).1 = .raised .rangeLessThanCount ↔
        ((5 : Nat) : Int) > 4 - 0) ∧
      (((5 : Nat) : Int) > (4 - 0) + 1 →
        (sample 0 4 5 true 10 ⟨fun i => i, 0⟩).1 = .raised .rangeLessThanCount) ∧
      (((5 : Nat) : Int) ≤ 4 - 0 →
        (sample 0 4 5 true 10 ⟨fun i => i, 0⟩).1 ≠ .raised .rangeLessThanCount) ∧
      (sample 0 4 5 false 10 ⟨fun i => i, 0⟩).1 ≠ .raised .rangeLessThanCount) :=
  ⟨by decide, by decide,
    sample_range_guard 0 4 5 10 ⟨fun i => i, 0⟩ (by decide) (by decide)⟩

/-- Counterexample to claim C5 as stated.  The range `[0, 4]` holds five values and five are
asked for, so `k > (b - a) + 1` is false; `sample(0, 4, 5, true)` throws "range is less than
count" all the same, although its loop, entered without the guard, returns the five distinct
values on the engine outputs 0, 1, 2, 3, 4. -/
theorem sample_full_range_rejected :
    ¬ (((5 : Nat) : Int) > ((4 : Int) - 0) + 1) ∧
    (sample 0 4 5 true 10 ⟨fun i => i, 0⟩).1 = .raised .rangeLessThanCount ∧
    (sampleLoop 0 4 5 true 10 [] ⟨fun i => i, 0⟩).1 = .value [0, 1, 2, 3, 4] := by
  refine ⟨by decide, ?_, ?_⟩
  · decide
  · decide

/-! ### Rounding to `float` -/

/-- An integer rounds to itself. -/
theorem roundEven_intCast (k : Int) : roundEven (k : ℚ) = k := by
  unfold roundEven
  simp

/-- Rounding to an integer gives the floor or the floor plus one. -/
theorem roundEven_mem (m : ℚ) : roundEven m = ⌊m⌋ ∨ roundEven m = ⌊m⌋ + 1 := by
  unfold roundEven
  split_ifs <;> simp

/-- Rounding to an integer is monotone. -/
theorem roundEven_mono {m n : ℚ} (h : m ≤ n) : roundEven m ≤ roundEven n := by
  have hf : ⌊m⌋ ≤ ⌊n⌋ := Int.floor_mono h
  rcases lt_or_eq_of_le hf with hlt | heq
  · rcases roundEven_mem m with h1 | h1 <;> rcases roundEven_mem n with h2 | h2 <;> omega
  · unfold roundEven
    rw [← heq]
    have hd : m - ⌊m⌋ ≤ n - ⌊m⌋ := by linarith
    split_ifs <;> first | omega | (exfalso; linarith)

/-- For `2 ^ e ≤ x < 2 ^ (e + 1)` the rounded value of `x` lies in `[2 ^ e, 2 ^ (e + 1)]`,
and its significand is an integer between `2 ^ 23` and `2 ^ 24`. -/
theorem roundPos_bounds {x : ℚ} (hx : 0 < x) :
    (2 : ℚ) ^ Int.log 2 x ≤ roundPos x ∧ roundPos x ≤ (2 : ℚ) ^ (Int.log 2 x + 1) ∧
    (8388608 : Int) ≤ roundEven (x / 2 ^ (Int.log 2 x - 23)) ∧
    roundEven (x / 2 ^ (Int.log 2 x - 23)) ≤ 16777216 := by
  have hs : (0 : ℚ) < 2 ^ (Int.log 2 x - 23) := by positivity
  have h1 : (2 : ℚ) ^ Int.log 2 x ≤ x := by
    have := Int.zpow_log_le_self (b := 2) (by norm_num) hx
    simpa using this
  have h2 : x < (2 : ℚ) ^ (Int.log 2 x + 1) := by
    have := Int.lt_zpow_succ_log_self (b := 2) (by norm_num) x
    simpa using this
  have e1 : (2 : ℚ) ^ Int.log 2 x = 8388608 * 2 ^ (Int.log 2 x - 23) := by
    rw [show Int.log 2 x = (Int.log 2 x - 23) + 23 by ring, zpow_add₀ (by norm_num)]
    norm_num
    ring
  have e2 : (2 : ℚ) ^ (Int.log 2 x + 1) = 16777216 * 2 ^ (Int.log 2 x - 23) := by
    rw [show Int.log 2 x + 1 = (Int.log 2 x - 23) + 24 by ring, zpow_add₀ (by norm_num)]
    norm_num
    ring
  have lo : ((8388608 : Int) : ℚ) ≤ x / 2 ^ (Int.log 2 x - 23) := by
    rw [le_div_iff₀ hs]
    push_cast
    linarith
  have hi : x / 2 ^ (Int.log 2 x - 23) ≤ ((16777216 : Int) : ℚ) := by
    rw [div_le_iff₀ hs]
    push_cast
    linarith
  have r1 : (8388608 : Int) ≤ roundEven (x / 2 ^ (Int.log 2 x - 23)) := by
    have := roundEven_mono lo
    rwa [roundEven_intCast] at this
  have r2 : roundEven (x / 2 ^ (Int.log 2 x - 23)) ≤ 16777216 := by
    have := roundEven_mono hi
    rwa [roundEven_intCast] at this
  refine ⟨?_, ?_, r1, r2⟩
  · unfold roundPos
    rw [e1]
    have : ((8388608 : Int) : ℚ) ≤ (roundEven (x / 2 ^ (Int.log 2 x - 23)) : ℚ) := by
      exact_mod_cast r1
    push_cast at this
    exact mul_le_mul_of_nonneg_right this hs.le
  · unfold roundPos
    rw [e2]
    have : (roundEven (x / 2 ^ (Int.log 2 x - 23)) : ℚ) ≤ ((16777216 : Int) : ℚ) := by
      exact_mod_cast r2
    push_cast at this
    exact mul_le_mul_of_nonneg_right this hs.le

/-- The rounded value of a positive number is positive. -/
theorem roundPos_pos {x : ℚ} (hx : 0 < x) : 0 < roundPos x :=
  lt_of_lt_of_le (by positivity) (roundPos_bounds hx).1

/-- Rounding of positive numbers is monotone. -/
theorem roundPos_mono {x y : ℚ} (hx : 0 < x) (hxy : x ≤ y) : roundPos x ≤ roundPos y := by
  have hy : 0 < y := lt_of_lt_of_le hx hxy
  have hl : Int.log 2 x ≤ Int.log 2 y := Int.log_mono_right hx hxy
  rcases lt_or_eq_of_le hl with hlt | heq
  · calc roundPos x ≤ (2 : ℚ) ^ (Int.log 2 x + 1) := (roundPos_bounds hx).2.1
      _ ≤ (2 : ℚ) ^ Int.log 2 y := zpow_le_zpow_right₀ (by norm_num) (by omega)
      _ ≤ roundPos y := (roundPos_bounds hy).1
  · unfold roundPos
    rw [← heq]
    have hs : (0 : ℚ) < 2 ^ (Int.log 2 x - 23) := by positivity
    have hm : x / 2 ^ (Int.log 2 x - 23) ≤ y / 2 ^ (Int.log 2 x - 23) :=
      div_le_div_of_nonneg_right hxy hs.le
    have := roundEven_mono hm
    exact mul_le_mul_of_nonneg_right (by exact_mod_cast this) hs.le

/-- The number 1 is a `float`. -/
theorem roundPos_one : roundPos 1 = 1 := by
  unfold roundPos
  rw [Int.log_one_right]
  have : (1 : ℚ) / 2 ^ ((0 : Int) - 23) = ((8388608 : Int) : ℚ) := by
    norm_num [zpow_neg]
  rw [this, roundEven_intCast]
  norm_num [zpow_neg]

/-- A number `k * 2 ^ t` with `2 ^ 23 ≤ k ≤ 2 ^ 24` is a `float`: rounding leaves it unchanged. -/
theorem roundPos_scaled (k t : Int) (h1 : 8388608 ≤ k) (h2 : k ≤ 16777216) :
    roundPos ((k : ℚ) * 2 ^ t) = (k : ℚ) * 2 ^ t := by
  have hs : (0 : ℚ) < 2 ^ t := by positivity
  have hk : (0 : ℚ) < (k : ℚ) := by exact_mod_cast (by omega : 0 < k)
  have hy : (0 : ℚ) < (k : ℚ) * 2 ^ t := mul_pos hk hs
  rcases lt_or_eq_of_le h2 with hlt | heq
  · have hlog : Int.log 2 ((k : ℚ) * 2 ^ t) = t + 23 := by
      apply le_antisymm
      · have : (k : ℚ) * 2 ^ t < ((2 : ℕ) : ℚ) ^ (t + 23 + 1) := by
          rw [show t + 23 + 1 = t + 24 by ring, zpow_add₀ (by norm_num)]
          have : (k : ℚ) < 16777216 := by exact_mod_cast hlt
          norm_num
          nlinarith
        have := (Int.lt_zpow_iff_log_lt (b := 2) (by norm_num) hy).1 this
        omega
      · apply (Int.zpow_le_iff_le_log (b := 2) (by norm_num) hy).1
        rw [zpow_add₀ (by norm_num)]
        have : (8388608 : ℚ) ≤ (k : ℚ) := by exact_mod_cast h1
        norm_num
        nlinarith
    unfold roundPos
    rw [hlog, show t + 23 - 23 = t by ring, mul_div_assoc, div_self hs.ne', mul_one,
      roundEven_intCast]
  · subst heq
    have hval : ((16777216 : Int) : ℚ) * 2 ^ t = ((2 : ℕ) : ℚ) ^ (t + 24) := by
      rw [zpow_add₀ (by norm_num)]
      norm_num
      ring
    have hlog : Int.log 2 (((16777216 : Int) : ℚ) * 2 ^ t) = t + 24 := by
      rw [hval]
      exact Int.log_zpow (by norm_num) _
    unfold roundPos
    rw [hlog, show t + 24 - 23 = t + 1 by ring]
    have hq : ((16777216 : Int) : ℚ) * 2 ^ t / 2 ^ (t + 1) = ((8388608 : Int) : ℚ) := by
      rw [zpow_add₀ (by norm_num), div_eq_iff (by positivity)]
      push_cast
      ring
    rw [hq, roundEven_intCast, zpow_add₀ (by norm_num)]
    push_cast
    ring

/-- Rounding a rounded value changes nothing. -/
theorem roundPos_idem {x : ℚ} (hx : 0 < x) : roundPos (roundPos x) = roundPos x := by
  obtain ⟨-, -, r1, r2⟩ := roundPos_bounds hx
  exact roundPos_scaled _ _ r1 r2

/-- Zero is a `float`. -/
theorem toFloat_zero : toFloat 0 = 0 := by
  unfold toFloat; simp

/-- One is a `float`. -/
theorem toFloat_one : toFloat 1 = 1 := by
  unfold toFloat
  rw [if_pos one_pos, roundPos_one]

/-- The `float` nearest to a positive number is positive. -/
theorem toFloat_pos {x : ℚ} (hx : 0 < x) : 0 < toFloat x := by
  unfold toFloat
  rw [if_pos hx]
  exact roundPos_pos hx

/-- Conversion to `float` is monotone on the non-negative numbers. -/
theorem toFloat_mono_nonneg {x y : ℚ} (hx : 0 ≤ x) (hxy : x ≤ y) : toFloat x ≤ toFloat y := by
  rcases lt_or_eq_of_le hx with hpos | hzero
  · unfold toFloat
    rw [if_pos hpos, if_pos (lt_of_lt_of_le hpos hxy)]
    exact roundPos_mono hpos hxy
  · rw [← hzero, toFloat_zero]
    rcases lt_or_eq_of_le (hzero ▸ hxy : (0 : ℚ) ≤ y) with hy | hy
    · exact (toFloat_pos hy).le
    · rw [← hy, toFloat_zero]

/-- Conversion to `float` leaves a `float` unchanged. -/
theorem toFloat_idem (x : ℚ) : toFloat (toFloat x) = toFloat x := by
  rcases lt_trichotomy x 0 with hneg | hzero | hpos
  · have hp : 0 < roundPos (-x) := roundPos_pos (by linarith)
    have hx : toFloat x = -roundPos (-x) := by
      unfold toFloat
      rw [if_neg (by linarith), if_pos hneg]
    rw [hx]
    unfold toFloat
    rw [if_neg (by linarith), if_pos (by linarith), neg_neg, roundPos_idem (by linarith)]
  · rw [hzero, toFloat_zero, toFloat_zero]
  · have hx : toFloat x = roundPos x := by
      unfold toFloat
      rw [if_pos hpos]
    rw [hx]
    unfold toFloat
    rw [if_pos (roundPos_pos hpos), roundPos_idem hpos]

/-- The number `2147483647` (`RAND_MAX` of glibc) is not a `float`; the conversion gives
`2 ^ 31`. -/
theorem toFloat_int_max : toFloat 2147483647 = 2147483648 := by
  have hlog : Int.log 2 (2147483647 : ℚ) = 30 := by
    apply le_antisymm
    · have := (Int.lt_zpow_iff_log_lt (b := 2) (r := (2147483647 : ℚ)) (x := 31)
        (by norm_num) (by norm_num)).1 (by norm_num)
      omega
    · exact (Int.zpow_le_iff_le_log (b := 2) (r := (2147483647 : ℚ)) (x := 30)
        (by norm_num) (by norm_num)).1 (by norm_num)
  have hfloor : ⌊(2147483647 : ℚ) / 128⌋ = 16777215 := by
    rw [Int.floor_eq_iff]
    constructor <;> norm_num
  have hround : roundEven ((2147483647 : ℚ) / 128) = 16777216 := by
    unfold roundEven
    rw [hfloor, if_neg (by norm_num), if_pos (by norm_num)]
    norm_num
  unfold toFloat
  rw [if_pos (by norm_num)]
  unfold roundPos
  rw [hlog]
  have h7 : (2 : ℚ) ^ ((30 : Int) - 23) = 128 := by norm_num
  rw [h7, hround]
  norm_num

/-! ### `random`, `uniform`, `probability` -/

/-- The draw `random()` is the rounded quotient of the engine output by `RAND_MAX`, both
converted to `float`; it uses one value of the engine. -/
theorem random_eq (lib : CLib) (e : Engine) :
    random lib e =
      (toFloat (toFloat (e.outputs e.pos : ℚ) / toFloat (lib.RAND_MAX : ℚ)),
        ⟨e.outputs, e.pos + 1⟩) := rfl

/-- The macro `RAND_MAX` is positive. -/
theorem CLib.RAND_MAX_pos (lib : CLib) : (0 : ℚ) < (lib.RAND_MAX : ℚ) := by
  have := lib.RAND_MAX_ge
  exact_mod_cast (by omega : 0 < lib.RAND_MAX)

/-- For an engine output `r ≤ RAND_MAX`, `random()` lies in `[0, 1]`; it is `0` exactly for
`r = 0`, and it is `1` for `r = RAND_MAX`. -/
theorem random_bounds (lib : CLib) (e : Engine) (hr : e.outputs e.pos ≤ lib.RAND_MAX) :
    0 ≤ (random lib e).1 ∧ (random lib e).1 ≤ 1 ∧
    ((random lib e).1 = 0 ↔ e.outputs e.pos = 0) ∧
    (e.outputs e.pos = lib.RAND_MAX → (random lib e).1 = 1) := by
  have hM : 0 < toFloat (lib.RAND_MAX : ℚ) := toFloat_pos lib.RAND_MAX_pos
  have hr0 : (0 : ℚ) ≤ (e.outputs e.pos : ℚ) := Nat.cast_nonneg _
  have hrM : toFloat (e.outputs e.pos : ℚ) ≤ toFloat (lib.RAND_MAX : ℚ) :=
    toFloat_mono_nonneg hr0 (by exact_mod_cast hr)
  have hn : 0 ≤ toFloat (e.outputs e.pos : ℚ) := by
    have := toFloat_mono_nonneg (le_refl (0 : ℚ)) hr0
    rwa [toFloat_zero] at this
  have hq0 : 0 ≤ toFloat (e.outputs e.pos : ℚ) / toFloat (lib.RAND_MAX : ℚ) :=
    div_nonneg hn hM.le
  have hq1 : toFloat (e.outputs e.pos : ℚ) / toFloat (lib.RAND_MAX : ℚ) ≤ 1 :=
    (div_le_one hM).2 hrM
  rw [random_eq]
  simp only
  refine ⟨?_, ?_, ?_, ?_⟩
  · have := toFloat_mono_nonneg (le_refl (0 : ℚ)) hq0
    rwa [toFloat_zero] at this
  · have := toFloat_mono_nonneg hq0 hq1
    rwa [toFloat_one] at this
  · constructor
    · intro h
      by_contra hne
      have hpos : (0 : ℚ) < (e.outputs e.pos : ℚ) := by
        exact_mod_cast Nat.pos_of_ne_zero hne
      have := toFloat_pos (div_pos (toFloat_pos hpos) hM)
      rw [h] at this
      exact lt_irrefl 0 this
    · intro h
      rw [h, Nat.cast_zero, toFloat_zero, zero_div, toFloat_zero]
  · intro h
    rw [h, div_self hM.ne', toFloat_one]

/-- With `RAND_MAX = 2147483647` the engine output `2 ^ 30` gives the draw `1/2` exactly:
`RAND_MAX` is converted to the `float` `2 ^ 31`. -/
theorem random_half (lib : CLib) (hM : lib.RAND_MAX = 2147483647) (e : Engine)
    (hr : e.outputs e.pos = 1073741824) : (random lib e).1 = 1 / 2 := by
  have h30 : toFloat (1073741824 : ℚ) = 1073741824 := by
    have := roundPos_scaled 8388608 7 (le_refl _) (by norm_num)
    unfold toFloat
    rw [if_pos (by norm_num)]
    norm_num at this ⊢
    exact this
  have hhalf : toFloat (1 / 2 : ℚ) = 1 / 2 := by
    have := roundPos_scaled 8388608 (-24) (le_refl _) (by norm_num)
    unfold toFloat
    rw [if_pos (by norm_num)]
    norm_num [zpow_neg] at this ⊢
    exact this
  rw [random_eq]
  simp only
  rw [hr, hM]
  push_cast
  rw [h30, toFloat_int_max]
  norm_num
  exact hhalf

/-- The draw `uniform(0, 1)` is the draw `random()`: the three operations are exact. -/
theorem uniform_zero_one (lib : CLib) (e : Engine) :
    (uniform lib 0 1 e).1 = (random lib e).1 := by
  unfold uniform
  simp only
  rw [sub_zero, toFloat_one, one_mul, zero_add]
  rw [random_eq]
  simp only
  rw [toFloat_idem, toFloat_idem]

/-- Claim C8, evaluation at the failing input.  When the engine hands out `RAND_MAX`, which
`std::rand()` may return, `random()` returns exactly 1: both operands of the division are
the same `float`, and the quotient of a non-zero `float` by itself is exactly `1.0f`. -/
theorem random_returns_one (lib : CLib) :
    (Engine.mk (fun _ => lib.RAND_MAX) 0).outputs 0 ≤ lib.RAND_MAX ∧
    (random lib ⟨fun _ => lib.RAND_MAX, 0⟩).1 = 1 ∧
    ¬ ((random lib ⟨fun _ => lib.RAND_MAX, 0⟩).1 < 1) := by
  have h : (random lib ⟨fun _ => lib.RAND_MAX, 0⟩).1 = 1 := by
    rw [random_eq]
    simp only
    rw [div_self (toFloat_pos lib.RAND_MAX_pos).ne', toFloat_one]
  refine ⟨le_refl _, h, ?_⟩
  rw [h]
  exact lt_irrefl 1

/-- Claim C9, as amended.  For an engine output `r ≤ RAND_MAX`, `probability(p)` is true
exactly when the draw `uniform(0, 1)` is `≤ p`, where the draw is `r` converted to `float`
and divided in `float` arithmetic by `RAND_MAX` converted to `float`; `probability(1.0)`
returns true; `probability(0.0)` returns false exactly when `r > 0`, and true when
`r = 0`. -/
theorem probability_extremes (lib : CLib) (p : ℚ) (e : Engine)
    (hr : e.outputs e.pos ≤ lib.RAND_MAX) :
    ((probability lib p e).1 = true ↔ (uniform lib 0 1 e).1 ≤ p) ∧
    (uniform lib 0 1 e).1 =
      toFloat (toFloat (e.outputs e.pos : ℚ) / toFloat (lib.RAND_MAX : ℚ)) ∧
    (probability lib 1 e).1 = true ∧
    ((probability lib 0 e).1 = false ↔ 0 < e.outputs e.pos) ∧
    ((probability lib 0 e).1 = true ↔ e.outputs e.pos = 0) := by
  obtain ⟨h0, h1, hz, -⟩ := random_bounds lib e hr
  have hu : ∀ q : ℚ, (probability lib q e).1 = true ↔ (uniform lib 0 1 e).1 ≤ q := by
    intro q
    simp only [probability, decide_eq_true_eq]
  have hzero : (probability lib 0 e).1 = true ↔ e.outputs e.pos = 0 := by
    rw [hu 0, uniform_zero_one, ← hz]
    constructor
    · intro h; exact le_antisymm h h0
    · intro h; exact h.le
  refine ⟨hu p, ?_, ?_, ?_, hzero⟩
  · rw [uniform_zero_one, random_eq]
  · rw [hu 1, uniform_zero_one]
    exact h1
  · rw [← Bool.not_eq_true, hzero]
    omega

/-- Witness of `probability_extremes`: the engine output 5 under `refLib`. -/
theorem probability_extremes_witness :
    (Engine.mk (fun _ => 5) 0).outputs (Engine.mk (fun _ => 5) 0).pos ≤ refLib.RAND_MAX ∧
    (((probability refLib (1 / 2) ⟨fun _ => 5, 0⟩).1 = true ↔
      (uniform refLib 0 1 ⟨fun _ => 5, 0⟩).1 ≤ 1 / 2) ∧
    (uniform refLib 0 1 ⟨fun _ => 5, 0⟩).1 =
      toFloat (toFloat
        ((Engine.mk (fun _ => 5) 0).outputs (Engine.mk (fun _ => 5) 0).pos : ℚ) /
        toFloat (refLib.RAND_MAX : ℚ)) ∧
    (probability refLib 1 ⟨fun _ => 5, 0⟩).1 = true ∧
    ((probability refLib 0 ⟨fun _ => 5, 0⟩).1 = false ↔
      0 < (Engine.mk (fun _ => 5) 0).outputs (Engine.mk (fun _ => 5) 0).pos) ∧
    ((probability refLib 0 ⟨fun _ => 5, 0⟩).1 = true ↔
      (Engine.mk (fun _ => 5) 0).outputs (Engine.mk (fun _ => 5) 0).pos = 0)) :=
  ⟨by decide, probability_extremes refLib (1 / 2) ⟨fun _ => 5, 0⟩ (by decide)⟩

/-- Counterexample to claim C9 as stated.  On the engine output 0, which lies in
`[0, RAND_MAX]`, the draw `uniform(0, 1)` is `0`, and `0 <= 0.0` holds: `probability(0.0)`
returns true. -/
theorem probability_zero_true :
    (Engine.mk (fun _ => 0) 0).outputs 0 ≤ refLib.RAND_MAX ∧
    (uniform refLib 0 1 ⟨fun _ => 0, 0⟩).1 = 0 ∧
    (probability refLib 0 ⟨fun _ => 0, 0⟩).1 = true := by
  have hu : (uniform refLib 0 1 ⟨fun _ => 0, 0⟩).1 = 0 := by
    rw [uniform_zero_one, random_eq]
    simp only
    rw [Nat.cast_zero, toFloat_zero, zero_div, toFloat_zero]
  refine ⟨by decide, hu, ?_⟩
  simp only [probability, decide_eq_true_eq]
  rw [hu]

/-! ### `gammavariate` -/

/-- The loop of the `alpha > 1` branch throws nothing and never reaches the end of the
function. -/
theorem gammavariateCheng_outcome (lib : CLib) (alpha beta ainv bbb ccc : ℚ) :
    ∀ (fuel : Nat) (e : Engine),
      (∃ v, (gammavariateCheng lib alpha beta ainv bbb ccc fuel e).1 = .value v) ∨
      (gammavariateCheng lib alpha beta ainv bbb ccc fuel e).1 = .diverged := by
  intro fuel
  induction fuel with
  | zero => intro e; right; rfl
  | succ fuel ih =>
    intro e
    unfold gammavariateCheng
    simp only
    split_ifs with h1 h2
    · exact ih _
    · exact Or.inl ⟨_, rfl⟩
    · exact ih _

/-- The loop of the `alpha == 1` branch throws nothing, never reaches the end of the
function, and does not move the engine backwards. -/
theorem gammavariateOne_outcome (lib : CLib) (beta : ℚ) :
    ∀ (fuel : Nat) (u : ℚ) (e : Engine),
      ((∃ v, (gammavariateOne lib beta fuel u e).1 = .value v) ∨
        (gammavariateOne lib beta fuel u e).1 = .diverged) ∧
      e.pos ≤ (gammavariateOne lib beta fuel u e).2.pos := by
  intro fuel
  induction fuel with
  | zero =>
    intro u e
    unfold gammavariateOne
    split_ifs with h
    · exact ⟨Or.inr rfl, le_refl _⟩
    · exact ⟨Or.inl ⟨_, rfl⟩, le_refl _⟩
  | succ fuel ih =>
    intro u e
    unfold gammavariateOne
    split_ifs with h
    · obtain ⟨h1, h2⟩ := ih (random lib e).1 (random lib e).2
      refine ⟨h1, le_trans ?_ h2⟩
      rw [random_eq]
      exact Nat.le_succ _
    · exact ⟨Or.inl ⟨_, rfl⟩, le_refl _⟩

/-- The last branch of `gammavariate` uses exactly two draws and ends in one of two ways:
an accepted candidate leaves the loop through `break` and the function ends without a
`return`; a rejected candidate `x` is returned as `x * beta`. -/
theorem gammavariateGS_outcome (lib : CLib) (alpha beta : ℚ) (e : Engine) :
    (gsAccept lib alpha (random lib e).1 (random lib (random lib e).2).1 = true →
      gammavariateGS lib alpha beta e = (.noReturn, ⟨e.outputs, e.pos + 2⟩)) ∧
    (gsAccept lib alpha (random lib e).1 (random lib (random lib e).2).1 = false →
      gammavariateGS lib alpha beta e =
        (.value (gsX lib alpha (random lib e).1 * beta), ⟨e.outputs, e.pos + 2⟩)) := by
  constructor
  · intro h
    unfold gammavariateGS
    simp only [h, if_true]
    rfl
  · intro h
    unfold gammavariateGS
    simp only [h, Bool.false_eq_true, if_false]
    rfl

/-- The guard of `gammavariate` as it is written: the call throws exactly when `alpha < 0`
or `beta < 0`, the error is "invalid argument", and no draw has been made. -/
theorem gammavariate_raised_iff (lib : CLib) (alpha beta : ℚ) (fuel : Nat) (e : Engine)
    (err : Error) :
    ((gammavariate lib alpha beta fuel e).1 = .raised err ↔
      err = .invalidArgument ∧ (alpha < 0 ∨ beta < 0)) ∧
    ((gammavariate lib alpha beta fuel e).1 = .raised err →
      (gammavariate lib alpha beta fuel e).2 = e) := by
  by_cases hg : alpha < 0 ∨ beta < 0
  · have hval : gammavariate lib alpha beta fuel e = (.raised .invalidArgument, e) := by
      unfold gammavariate
      rw [if_pos hg]
    rw [hval]
    refine ⟨⟨?_, ?_⟩, fun _ => rfl⟩
    · intro h
      simp only [Outcome.raised.injEq] at h
      exact ⟨h.symm, hg⟩
    · rintro ⟨h, -⟩
      rw [h]
  · have hno : ∀ err2, (gammavariate lib alpha beta fuel e).1 ≠ .raised err2 := by
      intro err2
      unfold gammavariate
      rw [if_neg hg]
      split_ifs with h1 h2
      · simp only
        rcases gammavariateCheng_outcome lib alpha beta (lib.sqrt (2 * alpha - 1))
          (alpha - lib.log 4) (alpha + lib.sqrt (2 * alpha - 1)) fuel e with ⟨v, hv⟩ | hd
        · rw [hv]; simp
        · rw [hd]; simp
      · rcases (gammavariateOne_outcome lib beta fuel (random lib e).1
          (random lib e).2).1 with ⟨v, hv⟩ | hd
        · rw [hv]; simp
        · rw [hd]; simp
      · obtain ⟨ha, hr⟩ := gammavariateGS_outcome lib alpha beta e
        cases hacc : gsAccept lib alpha (random lib e).1 (random lib (random lib e).2).1 with
        | true => rw [ha hacc]; simp
        | false => rw [hr hacc]; simp
    refine ⟨⟨?_, ?_⟩, ?_⟩
    · intro h
      exact absurd h (hno err)
    · rintro ⟨-, h⟩
      exact absurd h hg
    · intro h
      exact absurd h (hno err)

/-- Claim C6, evaluation at the failing inputs.  `gammavariate(0, 1)` throws nothing: the
guard tests `alpha < 0`, the call goes on into the last branch and makes two draws.
`gammavariate(1, 0)` throws nothing either and makes at least one draw. -/
theorem gammavariate_zero_not_rejected (lib : CLib) (fuel : Nat) (e : Engine) :
    (∀ err, (gammavariate lib 0 1 fuel e).1 ≠ .raised err) ∧
    (gammavariate lib 0 1 fuel e).2.pos = e.pos + 2 ∧
    (∀ err, (gammavariate lib 1 0 fuel e).1 ≠ .raised err) ∧
    e.pos < (gammavariate lib 1 0 fuel e).2.pos := by
  refine ⟨?_, ?_, ?_, ?_⟩
  · intro err h
    have := ((gammavariate_raised_iff lib 0 1 fuel e err).1.1 h).2
    rcases this with h0 | h0
    · exact absurd h0 (lt_irrefl 0)
    · exact absurd h0 (by norm_num)
  · have hbr : gammavariate lib 0 1 fuel e = gammavariateGS lib 0 1 e := by
      unfold gammavariate
      rw [if_neg (by norm_num), if_neg (by norm_num), if_neg (by norm_num)]
    rw [hbr]
    obtain ⟨ha, hr⟩ := gammavariateGS_outcome lib 0 1 e
    cases hacc : gsAccept lib 0 (random lib e).1 (random lib (random lib e).2).1 with
    | true => rw [ha hacc]
    | false => rw [hr hacc]
  · intro err h
    have := ((gammavariate_raised_iff lib 1 0 fuel e err).1.1 h).2
    rcases this with h0 | h0
    · exact absurd h0 (by norm_num)
    · exact absurd h0 (lt_irrefl 0)
  · have hbr : gammavariate lib 1 0 fuel e =
        gammavariateOne lib 0 fuel (random lib e).1 (random lib e).2 := by
      unfold gammavariate
      rw [if_neg (by norm_num), if_neg (by norm_num), if_pos rfl]
    rw [hbr]
    have := (gammavariateOne_outcome lib 0 fuel (random lib e).1 (random lib e).2).2
    simp only [random_eq] at this ⊢
    omega

/-- The last branch at `alpha = 1/2`, `beta = 1` when `std::rand()` returns 0 twice, for any
library with `pow(0, 2) = 0` and `exp(0) = 1`: `u = 0`, `p = 0`, `x = 0`, `u1 = 0 ≤ 1`, the
candidate is accepted, and the call ends without returning a value. -/
theorem gammavariate_accepted_no_return (lib : CLib) (fuel : Nat)
    (hpow : lib.pow 0 2 = 0) (hexp : lib.exp 0 = 1) :
    gammavariate lib (1 / 2) 1 fuel ⟨fun _ => 0, 0⟩ = (.noReturn, ⟨fun _ => 0, 2⟩) := by
  have hbr : gammavariate lib (1 / 2) 1 fuel ⟨fun _ => 0, 0⟩ =
      gammavariateGS lib (1 / 2) 1 ⟨fun _ => 0, 0⟩ := by
    unfold gammavariate
    rw [if_neg (by norm_num), if_neg (by norm_num), if_neg (by norm_num)]
  have hu : (random lib ⟨fun _ => 0, 0⟩).1 = 0 := by
    rw [random_eq]
    simp only
    rw [Nat.cast_zero, toFloat_zero, zero_div, toFloat_zero]
  have hu1 : (random lib (random lib ⟨fun _ => 0, 0⟩).2).1 = 0 := by
    rw [random_eq, random_eq]
    simp only
    rw [Nat.cast_zero, toFloat_zero, zero_div, toFloat_zero]
  have hp : gsP lib (1 / 2) 0 = 0 := by
    unfold gsP; exact mul_zero _
  have hx : gsX lib (1 / 2) 0 = 0 := by
    unfold gsX
    rw [hp, if_pos (by norm_num)]
    norm_num
    exact hpow
  have hacc : gsAccept lib (1 / 2) 0 0 = true := by
    unfold gsAccept
    rw [hp, if_neg (by norm_num), hx, neg_zero, hexp]
    exact decide_eq_true (by norm_num)
  rw [hbr, (gammavariateGS_outcome lib (1 / 2) 1 ⟨fun _ => 0, 0⟩).1 (by rw [hu, hu1]; exact hacc)]

/-- The library `refLib` meets the two conditions of `gammavariate_accepted_no_return`. -/
theorem gammavariate_accepted_no_return_refLib :
    gammavariate refLib (1 / 2) 1 1 ⟨fun _ => 0, 0⟩ = (.noReturn, ⟨fun _ => 0, 2⟩) :=
  gammavariate_accepted_no_return refLib 1 (by simp [refLib]) (by simp [refLib])

/-- Claim C10, what the code does.  For `0 < alpha < 1` and `beta > 0` the call makes
exactly two draws, whatever they are, and never retries.  If the candidate `x` passes the
acceptance test, the loop is left through `break` and the function ends without returning a
value; if the candidate fails the test, `x * beta` is returned at once.  So a value is
returned only for a rejected candidate. -/
theorem gammavariate_small_alpha_outcome (lib : CLib) (alpha beta : ℚ) (fuel : Nat)
    (e : Engine) (h0 : 0 < alpha) (h1 : alpha < 1) (hb : 0 < beta) :
    (gsAccept lib alpha (random lib e).1 (random lib (random lib e).2).1 = true →
      gammavariate lib alpha beta fuel e = (.noReturn, ⟨e.outputs, e.pos + 2⟩)) ∧
    (gsAccept lib alpha (random lib e).1 (random lib (random lib e).2).1 = false →
      gammavariate lib alpha beta fuel e =
        (.value (gsX lib alpha (random lib e).1 * beta), ⟨e.outputs, e.pos + 2⟩)) ∧
    (∀ v, (gammavariate lib alpha beta fuel e).1 = .value v →
      gsAccept lib alpha (random lib e).1 (random lib (random lib e).2).1 = false) := by
  have hbr : gammavariate lib alpha beta fuel e = gammavariateGS lib alpha beta e := by
    unfold gammavariate
    rw [if_neg (by intro h; rcases h with h | h <;> linarith), if_neg (by linarith),
      if_neg (by linarith)]
  obtain ⟨ha, hr⟩ := gammavariateGS_outcome lib alpha beta e
  rw [hbr]
  refine ⟨ha, hr, ?_⟩
  intro v hv
  cases hacc : gsAccept lib alpha (random lib e).1 (random lib (random lib e).2).1 with
  | true =>
    rw [ha hacc] at hv
    cases hv
  | false => rfl

/-- Witness of `gammavariate_small_alpha_outcome`: `alpha = 1/2`, `beta = 1` under
`refLib`. -/
theorem gammavariate_small_alpha_outcome_witness :
    (0 : ℚ) < 1 / 2 ∧ (1 / 2 : ℚ) < 1 ∧ (0 : ℚ) < 1 ∧
    ((gsAccept refLib (1 / 2) (random refLib ⟨fun _ => 0, 0⟩).1
        (random refLib (random refLib ⟨fun _ => 0, 0⟩).2).1 = true →
      gammavariate refLib (1 / 2) 1 1 ⟨fun _ => 0, 0⟩ =
        (.noReturn,
          ⟨(Engine.mk (fun _ => 0) 0).outputs, (Engine.mk (fun _ => 0) 0).pos + 2⟩)) ∧
    (gsAccept refLib (1 / 2) (random refLib ⟨fun _ => 0, 0⟩).1
        (random refLib (random refLib ⟨fun _ => 0, 0⟩).2).1 = false →
      gammavariate refLib (1 / 2) 1 1 ⟨fun _ => 0, 0⟩ =
        (.value (gsX refLib (1 / 2) (random refLib ⟨fun _ => 0, 0⟩).1 * 1),
          ⟨(Engine.mk (fun _ => 0) 0).outputs, (Engine.mk (fun _ => 0) 0).pos + 2⟩)) ∧
    (∀ v, (gammavariate refLib (1 / 2) 1 1 ⟨fun _ => 0, 0⟩).1 = .value v →
      gsAccept refLib (1 / 2) (random refLib ⟨fun _ => 0, 0⟩).1
        (random refLib (random refLib ⟨fun _ => 0, 0⟩).2).1 = false)) :=
  ⟨by norm_num, by norm_num, by norm_num,
    gammavariate_small_alpha_outcome refLib (1 / 2) 1 1 ⟨fun _ => 0, 0⟩
      (by norm_num) (by norm_num) (by norm_num)⟩

/-! ### Seeding and reproducibility -/

/-- After `seed(v)` the engine and the stored seed are functions of `v` alone; the random
device is left as it was. -/
theorem seed_state (lib : CLib) (v : Nat) (w : World) :
    (seed lib v w).engine = ⟨lib.srand v, 0⟩ ∧ (seed lib v w).seed_value = v ∧
    (seed lib v w).rd = w.rd :=
  ⟨rfl, rfl, rfl⟩

/-- The value of `gauss(mu, sigma)` is computed from the next value of the random device; the
call neither reads nor moves the engine set by `seed`. -/
theorem gauss_reads_device (lib : CLib) (mu sigma : ℚ) (w : World) :
    (gauss lib mu sigma w).1 = lib.normal_distribution (w.rd.outputs w.rd.pos) mu sigma ∧
    (gauss lib mu sigma w).2.engine = w.engine ∧
    (gauss lib mu sigma w).2.seed_value = w.seed_value :=
  ⟨rfl, rfl, rfl⟩

/-- A call other than `gauss` made in two worlds with the same engine and the same stored
seed has the same outcome in both and leaves them with the same engine and stored seed. -/
theorem call_agrees (lib : CLib) (fuel : Nat) (op : Op) (w1 w2 : World)
    (he : w1.engine = w2.engine) (hs : w1.seed_value = w2.seed_value)
    (hg : op.isGauss = false) :
    (call lib fuel op w1).1 = (call lib fuel op w2).1 ∧
    (call lib fuel op w1).2.engine = (call lib fuel op w2).2.engine ∧
    (call lib fuel op w1).2.seed_value = (call lib fuel op w2).2.seed_value := by
  cases op with
  | gauss mu sigma => exact absurd hg (by simp [Op.isGauss])
  | _ => simp [call, onEngine, seed, reset, initEngine, he, hs]

/-- A call of `gauss` returns a value and leaves the engine and the stored seed as they
were. -/
theorem call_gauss (lib : CLib) (fuel : Nat) (op : Op) (w : World) (hg : op.isGauss = true) :
    (∃ x, (call lib fuel op w).1 = .value x) ∧
    (call lib fuel op w).2.engine = w.engine ∧
    (call lib fuel op w).2.seed_value = w.seed_value := by
  cases op with
  | gauss mu sigma => exact ⟨⟨_, rfl⟩, rfl, rfl⟩
  | _ => simp [Op.isGauss] at hg

/-- Unfolding of `run` at a first call. -/
theorem run_cons (lib : CLib) (fuel : Nat) (op : Op) (ops : List Op) (w : World) :
    run lib fuel (op :: ops) w =
      if (call lib fuel op w).1 = .diverged then [.diverged]
      else (call lib fuel op w).1 :: run lib fuel ops (call lib fuel op w).2 := by
  cases h : (call lib fuel op w).1 <;> simp [run, h]

/-- Runs from two worlds with the same engine and the same stored seed make the same number
of calls and agree on the outcome of every call other than `gauss`. -/
theorem run_agrees (lib : CLib) (fuel : Nat) :
    ∀ (ops : List Op) (w1 w2 : World), w1.engine = w2.engine →
      w1.seed_value = w2.seed_value →
      (run lib fuel ops w1).length = (run lib fuel ops w2).length ∧
      ∀ (i : Nat) (op : Op), ops[i]? = some op → op.isGauss = false →
        (run lib fuel ops w1)[i]? = (run lib fuel ops w2)[i]? := by
  intro ops
  induction ops with
  | nil =>
    intro w1 w2 _ _
    exact ⟨rfl, fun i op hi _ => by simp at hi⟩
  | cons op0 ops ih =>
    intro w1 w2 he hs
    rw [run_cons, run_cons]
    cases hgauss : op0.isGauss with
    | true =>
      obtain ⟨⟨x1, hx1⟩, e1, s1⟩ := call_gauss lib fuel op0 w1 hgauss
      obtain ⟨⟨x2, hx2⟩, e2, s2⟩ := call_gauss lib fuel op0 w2 hgauss
      obtain ⟨hlen, hidx⟩ := ih (call lib fuel op0 w1).2 (call lib fuel op0 w2).2
        (by rw [e1, e2, he]) (by rw [s1, s2, hs])
      rw [hx1, hx2, if_neg (by simp), if_neg (by simp)]
      refine ⟨by simp [hlen], ?_⟩
      intro i op hi hg
      cases i with
      | zero =>
        simp only [List.getElem?_cons_zero, Option.some.injEq] at hi
        rw [hi, hg] at hgauss
        cases hgauss
      | succ i =>
        simp only [List.getElem?_cons_succ] at hi ⊢
        exact hidx i op hi hg
    | false =>
      obtain ⟨h1, h2, h3⟩ := call_agrees lib fuel op0 w1 w2 he hs hgauss
      obtain ⟨hlen, hidx⟩ := ih (call lib fuel op0 w1).2 (call lib fuel op0 w2).2 h2 h3
      rw [h1]
      split_ifs with hd
      · exact ⟨rfl, fun i op _ _ => rfl⟩
      · refine ⟨by simp [hlen], ?_⟩
        intro i op hi hg
        cases i with
        | zero => simp only [List.getElem?_cons_zero]
        | succ i =>
          simp only [List.getElem?_cons_succ] at hi ⊢
          exact hidx i op hi hg

/-- Runs without `gauss` seeded with the same value have the same outcomes throughout. -/
theorem seeded_run_without_gauss (lib : CLib) (fuel v : Nat) (ops : List Op) (w1 w2 : World)
    (hg : ∀ op ∈ ops, op.isGauss = false) :
    run lib fuel ops (seed lib v w1) = run lib fuel ops (seed lib v w2) := by
  obtain ⟨hlen, hidx⟩ := run_agrees lib fuel ops (seed lib v w1) (seed lib v w2) rfl rfl
  apply List.ext_getElem?
  intro i
  cases hop : ops[i]? with
  | some op => exact hidx i op hop (hg op (List.getElem?_mem hop))
  | none =>
    have hi : ops.length ≤ i := List.getElem?_eq_none_iff.1 hop
    have hr : ∀ (l : List Op) (w : World), (run lib fuel l w).length ≤ l.length := by
      intro l
      induction l with
      | nil => intro w; simp [run]
      | cons o l ihl =>
        intro w
        rw [run_cons]
        split_ifs
        · simp
        · simpa using ihl _
    rw [List.getElem?_eq_none_iff.2 (le_trans (hr ops _) hi),
      List.getElem?_eq_none_iff.2 (le_trans (hr ops _) hi)]

end randomcpp
